import Mathlib

/-!
Verification of the SD-card SPI command transaction engine
(repository spi_sd_card, file src/card_command.rs together with the
command framer in src/lib.rs).

The development shallowly embeds the Rust code: bytes are natural
numbers (values below 256 on real streams), byte buffers are lists,
the engine's inner byte-processing loop and its outer transfer loop
become fuelled recursive functions, and the monotonic-clock timeout
checks become boolean oracles carried in the environment.
-/

set_option maxRecDepth 100000

namespace SpiSdCard

/-! ## CRC-16/XMODEM (crate crc, CRC_16_XMODEM: poly 0x1021, init 0,
no reflection, xorout 0), processed most-significant bit first.
The Rust code feeds each received data byte of a part into an
incremental Digest; finalize returns the register verbatim. -/

def crc16ShiftBit (c : Nat) : Nat :=
  if c &&& 0x8000 ≠ 0 then ((c <<< 1) ^^^ 0x1021) &&& 0xFFFF
  else (c <<< 1) &&& 0xFFFF

def crc16Update (c b : Nat) : Nat :=
  (List.range 8).foldl (fun acc _ => crc16ShiftBit acc) (c ^^^ ((b &&& 0xFF) <<< 8))

def crc16 (bytes : List Nat) : Nat := bytes.foldl crc16Update 0

/-! ## CRC-7/MMC (crate crc, CRC_7_MMC: poly 0x09, width 7, init 0,
no reflection, xorout 0), used once per 5-byte command head. -/

def crc7UpdateBit (reg m : Nat) : Nat :=
  let top := (reg >>> 6) &&& 1
  let reg' := (reg <<< 1) &&& 0x7F
  if top ^^^ m == 1 then reg' ^^^ 0x09 else reg'

def crc7UpdateByte (reg b : Nat) : Nat :=
  (List.range 8).foldl (fun r i => crc7UpdateBit r ((b >>> (7 - i)) &&& 1)) reg

def crc7 (bytes : List Nat) : Nat := bytes.foldl crc7UpdateByte 0

/-! ## Command framer (src/lib.rs, format_command together with the
bitfield accessors of CommandByte0 and CommandByte5 in structs.rs).
The bitfield crate masks each stored field to its width. -/

/-- Write boolean bit i of a byte (bitfield crate single-bit setter). -/
def setBit (byte i : Nat) (b : Bool) : Nat :=
  if b then byte ||| (1 <<< i) else byte &&& (0xFF ^^^ (1 <<< i))

/-- CommandByte0.set_command_index: bits 5..0. -/
def setCommandIndex (byte v : Nat) : Nat := (byte &&& 0xC0) ||| (v &&& 0x3F)

/-- CommandByte5.set_crc7: bits 7..1. -/
def setCrc7 (byte v : Nat) : Nat := (byte &&& 0x01) ||| ((v &&& 0x7F) <<< 1)

/-- u32::to_be_bytes. -/
def toBeBytes32 (a : Nat) : List Nat :=
  [(a >>> 24) &&& 0xFF, (a >>> 16) &&& 0xFF, (a >>> 8) &&& 0xFF, a &&& 0xFF]

def format_command (command_index argument : Nat) : List Nat :=
  let byte0 := setCommandIndex (setBit (setBit 0 7 false) 6 true) command_index
  let head := byte0 :: toBeBytes32 argument
  let byte5 := setBit (setCrc7 0 (crc7 head)) 0 true
  head ++ [byte5]

-- sanity: CRC-7/MMC check value and the classic CMD0 frame
example : crc7 [0x31,0x32,0x33,0x34,0x35,0x36,0x37,0x38,0x39] = 0x75 := by decide
example : crc16 [0x31,0x32,0x33,0x34,0x35,0x36,0x37,0x38,0x39] = 0x31C3 := by decide
example : format_command 0 0 = [0x40, 0, 0, 0, 0, 0x95] := by decide

/-! ## Data model of the command transaction engine (src/card_command.rs) -/

/-- Modelled from the spec: the start-block-token constant used by
card_command.rs via `use crate::START_BLOCK_TOKEN`; the module defining it
is not among the provided sources. Spec section 6: "Start block token:
0xFE". -/
def START_BLOCK_TOKEN : Nat := 0xFE

/-- ReadOperation (card_command.rs). The destination buffer itself lives in
the engine state (St.dest below); its length is what the planner reads as
operation.buffer.len(). -/
structure ReadOperation where
  expected_bytes_until_data : Nat
  parts : Nat
  part_size : Nat
  crc_enabled : Bool
  skip_bytes : Nat
  deriving Repr, DecidableEq

inductive CardCommandOperation where
  | read (op : ReadOperation)
  | write
  | busySignal (expected_bytes_until_not_busy : Nat)
  deriving Repr, DecidableEq

/-- CardCommand3Error without the transport case: the SPI transport of the
model is perfect (a fixed card-emitted byte stream), so Spi(e) never
arises. -/
inductive CardCommand3Error where
  | receiveResponseTimeout (dataReceived : Bool)
  | expectedStartBlockToken
  | invalidCrc
  | receiveDataTimeout (partsRead : Nat)
  deriving Repr, DecidableEq

/-- Phase (card_command.rs). The Instant stored in ReceiveResponseStart and
ReceiveStartBlockToken is replaced by the boolean clock oracles in Env;
the Digest of ReceiveData is its CRC-16 register. -/
inductive Phase where
  | sendCommand (bytesSent : Nat)
  | receiveResponseStart (dataReceived : Bool)
  | receiveResponse (bytesReceived : Nat)
  | waitUntilNotBusy (busyBytes : Nat)
  | receiveStartBlockToken (partsRead : Nat)
  | receiveCrc (expectedCrc : Nat) (partsRead : Nat) (byte0 : Option Nat)
  | receiveData (digest : Nat) (partsRead : Nat) (bytesReceived : Nat)
  | writeData (n : Nat)
  deriving Repr, DecidableEq

/-- The ways the Rust code can panic: todo!() and unreachable!() arms, a
slice write out of bounds, and the assert_ne!(bytes_to_transfer, 0). -/
inductive CrashKind where
  | todoOrUnreachable
  | oobWrite
  | assertZeroTransfer
  deriving Repr, DecidableEq

/-- The per-call environment of card_command: the pre-fetch hint for the
response, the operation descriptor, and the two clock oracles. The oracle
respExpired answers the check start_time.elapsed() >= response_timeout,
dataExpired answers start_time.elapsed() > operation.timeout. The six
command bytes clocked out do not influence the received stream and are
not carried. -/
structure Env where
  expected_bytes_until_response : Nat
  operation : Option CardCommandOperation
  respExpired : Bool
  dataExpired : Bool
  deriving Repr, DecidableEq

/-- The engine's mutable state: current phase, the caller's response slot
and read destination (overwritten in place), and a ghost recorder holding
every raw data byte consumed in the ReceiveData phase (the concatenated
received parts). -/
structure St where
  phase : Phase
  response : List Nat
  dest : List Nat
  receivedParts : List Nat
  deriving Repr, DecidableEq

/-- In-place slice write dst[start .. start+src.length) := src, mirroring
copy_from_slice; none when the target range is out of bounds (a Rust
panic). -/
def writeSlice (dst : List Nat) (start : Nat) (src : List Nat) : Option (List Nat) :=
  if start + src.length ≤ dst.length then
    some (dst.take start ++ src ++ dst.drop (start + src.length))
  else none

/-- The R1 scan loop of Phase::ReceiveResponseStart: index of the first
byte that is not 0xFF and has bit 7 clear, if any, together with the
updated data_received flag. -/
def scanR1 : List Nat → Bool → Option Nat × Bool
  | [], dr => (none, dr)
  | b :: rest, dr =>
    let dr' := dr || (b != 0xFF)
    if b ≠ 0xFF ∧ b &&& 0x80 = 0 then (some 0, dr')
    else
      match scanR1 rest dr' with
      | (some i, dr'') => (some (i + 1), dr'')
      | (none, dr'') => (none, dr'')

inductive TokenScan where
  | found (i : Nat)
  | badByte
  | exhausted
  deriving Repr, DecidableEq

/-- The scan loop of Phase::ReceiveStartBlockToken: skip 0xFF filler and
stop at the first other byte, which is either the start token (at index i)
or an unexpected byte. -/
def scanToken : List Nat → TokenScan
  | [] => .exhausted
  | b :: rest =>
    if b ≠ 0xFF then
      (if b = START_BLOCK_TOKEN then .found 0 else .badByte)
    else
      match scanToken rest with
      | .found i => .found (i + 1)
      | x => x

/-- Result of interpreting one valid prefix of the scratch buffer:
continue with another transfer, terminate (break 'spi), fail with a typed
error, panic, or exhaust the fuel. The source's WaitUntilNotBusy arm never
advances bytes_processed, so on a nonempty all-zero busy prefix the inner
while loop re-runs with the identical slice forever; every fuel is then
exhausted, which ChunkOut.spin records. -/
inductive ChunkOut where
  | next (st : St)
  | success (st : St)
  | failure (e : CardCommand3Error) (st : St)
  | crash (k : CrashKind) (st : St)
  | spin
  deriving Repr, DecidableEq

/-- One pass of the inner interpreter loop of card_command
(while buffer_valid_bytes > bytes_processed), over the valid prefix the
last transfer filled. Fuel bounds the number of loop iterations. -/
def processBytes (env : Env) : Nat → St → List Nat → ChunkOut
  | _, st, [] => .next st
  | 0, _, _ :: _ => .spin
  | fuel + 1, st, b :: rest =>
      let chunk : List Nat := b :: rest
      match st.phase with
      | .sendCommand bytesSent =>
        let commandBytesSent := min (6 - bytesSent) chunk.length
        let newBytesSent := bytesSent + commandBytesSent
        let phase' := if newBytesSent = 6 then Phase.receiveResponseStart false
                      else Phase.sendCommand newBytesSent
        processBytes env fuel { st with phase := phase' } (chunk.drop commandBytesSent)
      | .receiveResponseStart dataReceived =>
        match scanR1 chunk dataReceived with
        | (some i, _) =>
          processBytes env fuel { st with phase := .receiveResponse 0 } (chunk.drop i)
        | (none, dr') =>
          if env.respExpired then .failure (.receiveResponseTimeout dr') st
          else .next { st with phase := .receiveResponseStart dr' }
      | .receiveResponse bytesReceived =>
        let copyLen := min (st.response.length - bytesReceived) chunk.length
        match writeSlice st.response bytesReceived (chunk.take copyLen) with
        | none => .crash .oobWrite st
        | some response' =>
          let st' := { st with response := response' }
          let newBytesReceived := bytesReceived + copyLen
          if newBytesReceived = st.response.length then
            match env.operation with
            | none => .success st'
            | some (.read _) =>
              processBytes env fuel { st' with phase := .receiveStartBlockToken 0 }
                (chunk.drop copyLen)
            | some .write =>
              processBytes env fuel { st' with phase := .writeData 0 } (chunk.drop copyLen)
            | some (.busySignal _) =>
              processBytes env fuel { st' with phase := .waitUntilNotBusy 0 } (chunk.drop copyLen)
          else
            processBytes env fuel { st' with phase := .receiveResponse newBytesReceived }
              (chunk.drop copyLen)
      | .waitUntilNotBusy _ =>
        if chunk.any (fun x => x != 0) then .success st
        else processBytes env fuel { st with phase := .waitUntilNotBusy chunk.length } chunk
      | .receiveStartBlockToken partsRead =>
        match scanToken chunk with
        | .badByte => .failure .expectedStartBlockToken st
        | .found i =>
          let st' := { st with phase := .receiveData 0 partsRead 0 }
          match env.operation with
          | some (.read _) =>
            if env.dataExpired then .failure (.receiveDataTimeout partsRead) st'
            else processBytes env fuel st' (chunk.drop (i + 1))
          | _ => .crash .todoOrUnreachable st'
        | .exhausted =>
          match env.operation with
          | some (.read _) =>
            if env.dataExpired then .failure (.receiveDataTimeout partsRead) st
            else .next st
          | _ => .crash .todoOrUnreachable st
      | .receiveData digest partsRead bytesReceived =>
        match env.operation with
        | some (.read op) =>
          let readLen := min (op.part_size - bytesReceived) chunk.length
          let bytesToRead := chunk.take readLen
          let start := partsRead * op.part_size + bytesReceived
          let dsc : Nat × Nat × Nat :=
            if start < op.skip_bytes then
              if start + readLen > op.skip_bytes then
                let bytesToSkip := op.skip_bytes - bytesReceived
                (0, bytesToSkip, readLen - bytesToSkip)
              else (0, 0, 0)
            else (start - op.skip_bytes, 0, readLen)
          let destStart := dsc.1
          let srcStart := dsc.2.1
          let copyLen0 := dsc.2.2
          let copyLen := if destStart + copyLen0 > st.dest.length then
              copyLen0 - (destStart + copyLen0 - st.dest.length)
            else copyLen0
          if srcStart + copyLen ≤ readLen then
            match writeSlice st.dest destStart ((bytesToRead.drop srcStart).take copyLen) with
            | none => .crash .oobWrite st
            | some dest' =>
              let digest' := bytesToRead.foldl crc16Update digest
              let st' :=
                { st with dest := dest', receivedParts := st.receivedParts ++ bytesToRead }
              let newBytesReceived := bytesReceived + readLen
              if newBytesReceived = op.part_size then
                processBytes env fuel
                  { st' with phase := .receiveCrc digest' partsRead none } (chunk.drop readLen)
              else
                processBytes env fuel
                  { st' with phase := .receiveData digest' partsRead newBytesReceived }
                  (chunk.drop readLen)
          else .crash .oobWrite st
        | _ => .crash .todoOrUnreachable st
      | .receiveCrc expectedCrc partsRead byte0 =>
        match byte0 with
        | some b0 =>
          let crc := b0 * 256 + b
          match env.operation with
          | some (.read op) =>
            if crc = expectedCrc ∨ op.crc_enabled = false then
              let newPartsRead := partsRead + 1
              if newPartsRead = op.parts then .success st
              else
                processBytes env fuel
                  { st with phase := .receiveStartBlockToken newPartsRead } rest
            else .failure .invalidCrc st
          | _ => .crash .todoOrUnreachable st
        | none =>
          processBytes env fuel
            { st with phase := .receiveCrc expectedCrc partsRead (some b) } rest
      | .writeData _ => .crash .todoOrUnreachable st

/-! ## The transfer planner -/

/-- Cost of one part in the planner's optimistic tail:
expected_bytes_until_data + operation.buffer.len() + size_of::<u16>().
Note the source uses the whole destination length here, not the part
size. -/
def readTailPerPart (op : ReadOperation) (destLen : Nat) : Nat :=
  op.expected_bytes_until_data + destLen + 2

/-- The optimistic tail cost added in the SendCommand, ReceiveResponseStart
and ReceiveResponse planner arms; none encodes the todo!() of the Write
arm. -/
def tailCost (operation : Option CardCommandOperation) (destLen : Nat) : Option Nat :=
  match operation with
  | none => some 0
  | some (.read op) => some (readTailPerPart op destLen * op.parts)
  | some .write => none
  | some (.busySignal h) => some h

/-- The planner's optimistic transfer length before clipping to the
scratch size: the parenthesised expression of each arm of the match at
the bottom of card_command's main loop. none encodes the todo!() and
unreachable!() arms. bufferLen enters only through the SendCommand arm's
copy_len. -/
def optimisticLen (env : Env) (bufferLen respLen destLen : Nat) : Phase → Option Nat
  | .sendCommand bytesSent =>
    (tailCost env.operation destLen).map (fun t =>
      min (6 - bytesSent) bufferLen + env.expected_bytes_until_response + respLen + t)
  | .receiveResponseStart _ =>
    (tailCost env.operation destLen).map (fun t =>
      env.expected_bytes_until_response + respLen + t)
  | .receiveResponse bytesReceived =>
    (tailCost env.operation destLen).map (fun t => respLen - bytesReceived + t)
  | .receiveStartBlockToken partsRead =>
    match env.operation with
    | some (.read op) => some (readTailPerPart op destLen * (op.parts - partsRead))
    | _ => none
  | .receiveData _ partsRead bytesReceived =>
    match env.operation with
    | some (.read op) =>
      some (destLen - bytesReceived + 2 +
        readTailPerPart op destLen * (op.parts - (partsRead + 1)))
    | _ => none
  | .receiveCrc _ partsRead byte0 =>
    match env.operation with
    | some (.read op) =>
      some (2 - (if byte0.isSome then 1 else 0) +
        readTailPerPart op destLen * (op.parts - (partsRead + 1)))
    | _ => none
  | .waitUntilNotBusy _ =>
    match env.operation with
    | some (.busySignal h) => some h
    | _ => none
  | .writeData _ => none

/-- bytes_to_transfer: the optimistic length clipped to the scratch
size. -/
def bytesToTransfer (env : Env) (bufferLen respLen destLen : Nat) (phase : Phase) :
    Option Nat :=
  (optimisticLen env bufferLen respLen destLen phase).map (fun n => min n bufferLen)

/-- Terminal result of a whole card_command call (or of the chunk-feeding
harness runChunks): Ok(()), a typed error, a panic, fuel exhaustion, or -
for runChunks only - the supplied chunks ran out before the engine
finished. -/
inductive RunResult where
  | ok (st : St)
  | err (e : CardCommand3Error) (st : St)
  | crash (k : CrashKind) (st : St)
  | pending (st : St)
  | spin
  deriving Repr, DecidableEq

/-- The outer 'spi loop of card_command: plan a transfer, clock the next
len bytes of the card stream in place (0xFF beyond its end), interpret
the received prefix, repeat. Fuel bounds the number of transfers and
inner iterations. -/
def card_command (env : Env) (bufferLen : Nat) (stream : List Nat) :
    Nat → St → Nat → RunResult
  | 0, _, _ => .spin
  | fuel + 1, st, pos =>
    match bytesToTransfer env bufferLen st.response.length st.dest.length st.phase with
    | none => .crash .todoOrUnreachable st
    | some len =>
      if len = 0 then .crash .assertZeroTransfer st
      else
        let chunk := (List.range len).map (fun i => stream.getD (pos + i) 0xFF)
        match processBytes env (fuel + 1) st chunk with
        | .next st' => card_command env bufferLen stream fuel st' (pos + len)
        | .success st' => .ok st'
        | .failure e st' => .err e st'
        | .crash k st' => .crash k st'
        | .spin => .spin

/-- Chunk-splitting harness: feed an arbitrary decomposition of the card
stream, cut at transfer boundaries, through the interpreter, abstracting
the planner away. This is how spec section 8 invariant 7 (splitting the
simulated transfer responses at every byte boundary) is stated. -/
def runChunks (env : Env) : Nat → St → List (List Nat) → RunResult
  | _, st, [] => .pending st
  | 0, _, _ :: _ => .spin
  | fuel + 1, st, c :: cs =>
    match processBytes env (fuel + 1) st c with
    | .next st' => runChunks env fuel st' cs
    | .success st' => .ok st'
    | .failure e st' => .err e st'
    | .crash k st' => .crash k st'
    | .spin => .spin

/-- The state at entry of card_command: Phase::SendCommand(0), the
caller's response slot and destination with their initial contents, and
an empty ghost recorder. -/
def initSt (response dest : List Nat) : St :=
  { phase := .sendCommand 0, response := response, dest := dest, receivedParts := [] }

/-! ## The engine invariant -/

/-- Validity of a read descriptor against the destination it writes (spec
section 3): at least one part, a skip smaller than one part, and a
destination that is the concatenated parts minus the skipped head. -/
def ValidRead (op : ReadOperation) (destLen : Nat) : Prop :=
  1 ≤ op.parts ∧ op.skip_bytes < op.part_size ∧
    destLen + op.skip_bytes = op.parts * op.part_size

/-- The operations the invariant machinery covers: no tail, a valid read,
or a busy wait (Write is unimplemented in the source). -/
def GoodOp (env : Env) (destLen : Nat) : Prop :=
  env.operation = none ∨
    (∃ op, env.operation = some (.read op) ∧ ValidRead op destLen) ∨
    (∃ h, env.operation = some (.busySignal h))

/-- The written span of the destination agrees with the raw received part
bytes shifted left by the skip amount. -/
def DestAgrees (st : St) (skip : Nat) : Prop :=
  st.dest.take (st.receivedParts.length - skip) = st.receivedParts.drop skip

/-- Per-phase continuation data invariant. -/
def PhaseInv (env : Env) (st : St) : Prop :=
  match st.phase, env.operation with
  | .sendCommand k, _ => k < 6 ∧ st.receivedParts = []
  | .receiveResponseStart _, _ => st.receivedParts = []
  | .receiveResponse k, _ => k < st.response.length ∧ st.receivedParts = []
  | .waitUntilNotBusy _, some (.busySignal _) => st.receivedParts = []
  | .receiveStartBlockToken d, some (.read op) =>
      d < op.parts ∧ st.receivedParts.length = d * op.part_size ∧
        DestAgrees st op.skip_bytes
  | .receiveData dg d k, some (.read op) =>
      d < op.parts ∧ k < op.part_size ∧
        st.receivedParts.length = d * op.part_size + k ∧
        dg = (st.receivedParts.drop (d * op.part_size)).foldl crc16Update 0 ∧
        DestAgrees st op.skip_bytes
  | .receiveCrc e d _, some (.read op) =>
      d < op.parts ∧ st.receivedParts.length = (d + 1) * op.part_size ∧
        e = (st.receivedParts.drop (d * op.part_size)).foldl crc16Update 0 ∧
        DestAgrees st op.skip_bytes
  | _, _ => False

/-- The engine invariant: nonempty response slot, a supported operation
fitting the destination, and the phase data invariant. -/
def Inv (env : Env) (st : St) : Prop :=
  1 ≤ st.response.length ∧ GoodOp env st.dest.length ∧ PhaseInv env st

/-- Both caller-owned buffers keep their lengths. -/
def StLens (st st' : St) : Prop :=
  st'.response.length = st.response.length ∧ st'.dest.length = st.dest.length

/-- What holds at a break 'spi (success): for a read operation the
destination is exactly the received parts from the skip offset on. -/
def SuccessInv (env : Env) (st' : St) : Prop :=
  match env.operation with
  | some (.read op) =>
      st'.receivedParts.length = op.parts * op.part_size ∧
        st'.dest = st'.receivedParts.drop op.skip_bytes
  | _ => True

/-- What holds at each typed failure: a timeout implies its deadline
oracle fired, and an InvalidCrc failure happens at a ReceiveCrc phase
whose expected CRC is the CRC-16/XMODEM of the offending part's raw
received bytes, under a CRC-enabled read operation, with parts_done not
counting that part. -/
def FailInv (env : Env) (e : CardCommand3Error) (st' : St) : Prop :=
  match e with
  | .receiveResponseTimeout _ => env.respExpired = true
  | .receiveDataTimeout _ => env.dataExpired = true
  | .expectedStartBlockToken => True
  | .invalidCrc =>
      ∃ op d b0, env.operation = some (.read op) ∧ op.crc_enabled = true ∧
        d < op.parts ∧
        st'.phase =
          .receiveCrc (crc16 (st'.receivedParts.drop (d * op.part_size))) d (some b0) ∧
        st'.receivedParts.length = (d + 1) * op.part_size

/-- The guarantee the invariant yields for each interpreter outcome:
in particular no arm ever panics, so no slice write is out of bounds. -/
def ProcOut (env : Env) (st : St) : ChunkOut → Prop
  | .next st' => Inv env st' ∧ StLens st st'
  | .success st' => StLens st st' ∧ SuccessInv env st'
  | .failure e st' => StLens st st' ∧ FailInv env e st'
  | .crash _ _ => False
  | .spin => True

/-! ### Helper lemmas about slice writes -/

theorem writeSlice_eq_some {dst src : List Nat} {start : Nat}
    (h : start + src.length ≤ dst.length) :
    writeSlice dst start src =
      some (dst.take start ++ src ++ dst.drop (start + src.length)) := by
  simp [writeSlice, h]

theorem writeSlice_length {dst src out : List Nat} {start : Nat}
    (h : writeSlice dst start src = some out) : out.length = dst.length := by
  unfold writeSlice at h
  split at h
  · next hle =>
    cases h
    simp only [List.length_append, List.length_take, List.length_drop]
    omega
  · cases h

theorem writeSlice_nil (dst : List Nat) (start : Nat) :
    writeSlice dst start [] = if start ≤ dst.length then some dst else none := by
  unfold writeSlice
  split <;> split <;> simp_all

theorem StLens.rfl' (st : St) : StLens st st := ⟨rfl, rfl⟩

theorem StLens.trans' {s₁ s₂ s₃ : St} (h₁ : StLens s₁ s₂) (h₂ : StLens s₂ s₃) :
    StLens s₁ s₃ := ⟨h₂.1.trans h₁.1, h₂.2.trans h₁.2⟩

theorem ProcOut_of {env : Env} {st st₁ : St} {out : ChunkOut}
    (h : ProcOut env st₁ out) (hl : StLens st st₁) : ProcOut env st out := by
  cases out with
  | next st' => exact ⟨h.1, StLens.trans' hl h.2⟩
  | success st' => exact ⟨StLens.trans' hl h.1, h.2⟩
  | failure e st' => exact ⟨StLens.trans' hl h.1, h.2⟩
  | crash k st' => exact h
  | spin => exact h

/-! ### One interpreter arm at a time: each lemma discharges ProcOut for
one phase, taking the induction hypothesis over the smaller fuel as an
argument. -/

theorem step_sendCommand (env : Env) (f k : Nat) (st : St) (b : Nat) (rest : List Nat)
    (hp : st.phase = .sendCommand k) (hInv : Inv env st)
    (IH : ∀ st₁ c₁, Inv env st₁ → StLens st st₁ →
      ProcOut env st (processBytes env f st₁ c₁)) :
    ProcOut env st (processBytes env (f + 1) st (b :: rest)) := by
  obtain ⟨ph, resp, dst, parts⟩ := st
  simp only at hp
  subst hp
  obtain ⟨hresp, hop, hphase⟩ := hInv
  simp only [PhaseInv] at hphase
  obtain ⟨hk, hparts⟩ := hphase
  simp only [processBytes]
  refine IH _ _ ⟨hresp, hop, ?_⟩ (StLens.rfl' _)
  by_cases h6 : k + min (6 - k) (b :: rest).length = 6 <;>
    simp only [PhaseInv, h6, if_pos, if_neg, hparts] <;> simp_all
  omega

theorem step_rrs (env : Env) (f : Nat) (dr : Bool) (st : St) (b : Nat) (rest : List Nat)
    (hp : st.phase = .receiveResponseStart dr) (hInv : Inv env st)
    (IH : ∀ st₁ c₁, Inv env st₁ → StLens st st₁ →
      ProcOut env st (processBytes env f st₁ c₁)) :
    ProcOut env st (processBytes env (f + 1) st (b :: rest)) := by
  obtain ⟨ph, resp, dst, parts⟩ := st
  simp only at hp
  subst hp
  obtain ⟨hresp, hop, hphase⟩ := hInv
  simp only [PhaseInv] at hphase
  simp only [processBytes]
  rcases hscan : scanR1 (b :: rest) dr with ⟨oi, dr2⟩
  cases oi with
  | some i =>
    simp only [hscan]
    exact IH _ _ ⟨hresp, hop, ⟨hresp, hphase⟩⟩ (StLens.rfl' _)
  | none =>
    simp only [hscan]
    cases hre : env.respExpired with
    | true =>
      simp only [if_pos]
      exact ⟨StLens.rfl' _, by simp [FailInv, hre]⟩
    | false =>
      simp only [Bool.false_eq_true, if_neg, reduceIte]
      exact ⟨⟨hresp, hop, hphase⟩, StLens.rfl' _⟩

theorem step_rResp (env : Env) (f k : Nat) (st : St) (b : Nat) (rest : List Nat)
    (hp : st.phase = .receiveResponse k) (hInv : Inv env st)
    (IH : ∀ st₁ c₁, Inv env st₁ → StLens st st₁ →
      ProcOut env st (processBytes env f st₁ c₁)) :
    ProcOut env st (processBytes env (f + 1) st (b :: rest)) := by
  obtain ⟨ph, resp, dst, parts⟩ := st
  simp only at hp
  subst hp
  obtain ⟨hresp, hop, hphase⟩ := hInv
  simp only [PhaseInv] at hphase
  obtain ⟨hk, hparts⟩ := hphase
  simp only [processBytes]
  set cl := min (resp.length - k) (b :: rest).length with hcl
  have hcl1 : cl ≤ resp.length - k := Nat.min_le_left _ _
  have hcl2 : cl ≤ (b :: rest).length := Nat.min_le_right _ _
  have htl : ((b :: rest).take cl).length = cl := by
    simp only [List.length_take]
    exact Nat.min_eq_left hcl2
  have hkc : k + cl ≤ resp.length := by omega
  have hws : writeSlice resp k ((b :: rest).take cl) =
      some (resp.take k ++ (b :: rest).take cl ++ resp.drop (k + cl)) := by
    have h := @writeSlice_eq_some resp ((b :: rest).take cl) k
      (by rw [htl]; omega)
    rw [htl] at h
    exact h
  simp only [hws]
  set resp' := resp.take k ++ (b :: rest).take cl ++ resp.drop (k + cl) with hr'
  have hlen : resp'.length = resp.length := by
    simp only [hr', List.length_append, List.length_take, List.length_drop]
    have h1 : k ⊓ resp.length = k := Nat.min_eq_left (by omega)
    have h2 : cl ⊓ (b :: rest).length = cl := Nat.min_eq_left hcl2
    rw [h1, h2]
    omega
  have hlens : StLens ⟨.receiveResponse k, resp, dst, parts⟩
      ⟨.receiveResponse k, resp', dst, parts⟩ := ⟨hlen, rfl⟩
  by_cases hdone : k + cl = resp.length
  · simp only [hdone, if_pos]
    rcases hop with hnone | ⟨op, hopr, hval⟩ | ⟨h, hopb⟩
    · simp only [hnone]
      exact ⟨⟨hlen, rfl⟩, by simp [SuccessInv, hnone]⟩
    · simp only [hopr]
      refine ProcOut_of (IH _ _ ⟨?_, ?_, ?_⟩ hlens) (StLens.rfl' _)
      · simpa [hlen] using hresp
      · exact Or.inr (Or.inl ⟨op, hopr, hval⟩)
      · simp only [PhaseInv, hopr, hparts]
        refine ⟨hval.1, by simp, ?_⟩
        simp [DestAgrees, hparts]
    · simp only [hopb]
      refine ProcOut_of (IH _ _ ⟨?_, ?_, ?_⟩ hlens) (StLens.rfl' _)
      · simpa [hlen] using hresp
      · exact Or.inr (Or.inr ⟨h, hopb⟩)
      · simp only [PhaseInv, hopb]
        exact hparts
  · simp only [hdone, if_neg, reduceIte]
    refine ProcOut_of (IH _ _ ⟨?_, ?_, ?_⟩ hlens) (StLens.rfl' _)
    · simpa [hlen] using hresp
    · exact hop
    · simp only [PhaseInv, hlen]
      exact ⟨by omega, hparts⟩

theorem step_busy (env : Env) (f bb : Nat) (st : St) (b : Nat) (rest : List Nat)
    (hp : st.phase = .waitUntilNotBusy bb) (hInv : Inv env st)
    (IH : ∀ st₁ c₁, Inv env st₁ → StLens st st₁ →
      ProcOut env st (processBytes env f st₁ c₁)) :
    ProcOut env st (processBytes env (f + 1) st (b :: rest)) := by
  obtain ⟨ph, resp, dst, parts⟩ := st
  simp only at hp
  subst hp
  obtain ⟨hresp, hop, hphase⟩ := hInv
  rw [PhaseInv.eq_def] at hphase
  have hbusy : ∃ h, env.operation = some (.busySignal h) := by
    rcases henv : env.operation with _ | op
    · rw [henv] at hphase; simp at hphase
    · cases op with
      | read o => rw [henv] at hphase; simp at hphase
      | write => rw [henv] at hphase; simp at hphase
      | busySignal h => exact ⟨h, rfl⟩
  obtain ⟨hbs, henv⟩ := hbusy
  rw [henv] at hphase
  simp only at hphase
  simp only [processBytes]
  by_cases hany : (b :: rest).any (fun x => x != 0)
  · simp only [hany, if_pos]
    exact ⟨StLens.rfl' _, by simp [SuccessInv, henv]⟩
  · simp only [hany, if_neg, reduceIte]
    refine ProcOut_of (IH _ _ ⟨hresp, hop, ?_⟩ (StLens.rfl' _)) (StLens.rfl' _)
    simp only [PhaseInv, henv]
    exact hphase

theorem step_token (env : Env) (f d : Nat) (st : St) (b : Nat) (rest : List Nat)
    (hp : st.phase = .receiveStartBlockToken d) (hInv : Inv env st)
    (IH : ∀ st₁ c₁, Inv env st₁ → StLens st st₁ →
      ProcOut env st (processBytes env f st₁ c₁)) :
    ProcOut env st (processBytes env (f + 1) st (b :: rest)) := by
  obtain ⟨ph, resp, dst, parts⟩ := st
  simp only at hp
  subst hp
  obtain ⟨hresp, hop, hphase⟩ := hInv
  rw [PhaseInv.eq_def] at hphase
  have hread : ∃ op, env.operation = some (.read op) := by
    rcases henv : env.operation with _ | op
    · rw [henv] at hphase; simp at hphase
    · cases op with
      | read o => exact ⟨o, rfl⟩
      | write => rw [henv] at hphase; simp at hphase
      | busySignal h => rw [henv] at hphase; simp at hphase
  obtain ⟨op, henv⟩ := hread
  have hval : ValidRead op dst.length := by
    rcases hop with hnone | ⟨op', hopr, hval⟩ | ⟨h, hopb⟩
    · rw [hnone] at henv; cases henv
    · rw [hopr] at henv
      cases henv
      exact hval
    · rw [hopb] at henv; cases henv
  rw [henv] at hphase
  simp only at hphase
  obtain ⟨hd, hlen, hagree⟩ := hphase
  have hP : 1 ≤ op.part_size := by
    have := hval.2.1; omega
  simp only [processBytes]
  rcases hscan : scanToken (b :: rest) with i | _ | _
  · -- found the token at index i
    simp only [hscan, henv]
    cases hde : env.dataExpired with
    | true =>
      simp only [if_pos]
      exact ⟨StLens.rfl' _, by simp [FailInv, hde]⟩
    | false =>
      simp only [Bool.false_eq_true, if_neg, reduceIte]
      refine ProcOut_of (IH _ _ ⟨hresp, hop, ?_⟩ (StLens.rfl' _)) (StLens.rfl' _)
      simp only [PhaseInv, henv]
      refine ⟨hd, hP, by simpa using hlen, ?_, hagree⟩
      rw [List.drop_of_length_le (by omega)]
      rfl
  · -- a byte that is neither filler nor the token
    simp only [hscan]
    exact ⟨StLens.rfl' _, by simp [FailInv]⟩
  · -- only filler, prefix exhausted
    simp only [hscan, henv]
    cases hde : env.dataExpired with
    | true =>
      simp only [if_pos]
      exact ⟨StLens.rfl' _, by simp [FailInv, hde]⟩
    | false =>
      simp only [Bool.false_eq_true, if_neg, reduceIte]
      refine ⟨⟨hresp, hop, ?_⟩, StLens.rfl' _⟩
      simp only [PhaseInv, henv]
      exact ⟨hd, hlen, hagree⟩

theorem take_write_middle (pre c0 post : List Nat) :
    (pre ++ c0 ++ post).take (pre.length + c0.length) = pre ++ c0 := by
  rw [List.append_assoc, List.take_append, List.take_left]

theorem step_data (env : Env) (f dg d k : Nat) (st : St) (b : Nat) (rest : List Nat)
    (hp : st.phase = .receiveData dg d k) (hInv : Inv env st)
    (IH : ∀ st₁ c₁, Inv env st₁ → StLens st st₁ →
      ProcOut env st (processBytes env f st₁ c₁)) :
    ProcOut env st (processBytes env (f + 1) st (b :: rest)) := by
  obtain ⟨ph, resp, dst, parts⟩ := st
  simp only at hp
  subst hp
  obtain ⟨hresp, hop, hphase⟩ := hInv
  rw [PhaseInv.eq_def] at hphase
  have hread : ∃ op, env.operation = some (.read op) := by
    rcases henv : env.operation with _ | op
    · rw [henv] at hphase; simp at hphase
    · cases op with
      | read o => exact ⟨o, rfl⟩
      | write => rw [henv] at hphase; simp at hphase
      | busySignal h => rw [henv] at hphase; simp at hphase
  obtain ⟨op, henv⟩ := hread
  have hval : ValidRead op dst.length := by
    rcases hop with hnone | ⟨op', hopr, hv⟩ | ⟨h, hopb⟩
    · rw [hnone] at henv; cases henv
    · rw [hopr] at henv; cases henv; exact hv
    · rw [hopb] at henv; cases henv
  rw [henv] at hphase
  simp only at hphase
  obtain ⟨hd, hk, hlen, hdg, hagree⟩ := hphase
  obtain ⟨hN, hS, hNP⟩ := hval
  simp only [processBytes, henv]
  set rl := min (op.part_size - k) (b :: rest).length with hrl
  have hrl1 : rl ≤ op.part_size - k := Nat.min_le_left _ _
  have hrl2 : rl ≤ (b :: rest).length := Nat.min_le_right _ _
  have hrlpos : 1 ≤ rl := by
    rw [hrl]
    refine Nat.le_min.mpr ⟨by omega, by simp⟩
  set c0 := (b :: rest).take rl with hc0
  have hc0len : c0.length = rl := by
    rw [hc0]
    simp only [List.length_take]
    exact Nat.min_eq_left hrl2
  have hbound : d * op.part_size + k + rl ≤ op.parts * op.part_size := by
    have h2 : (d + 1) * op.part_size ≤ op.parts * op.part_size :=
      Nat.mul_le_mul_right _ hd
    have h3 : (d + 1) * op.part_size = d * op.part_size + op.part_size := by ring
    omega
  have hdg' : ((parts ++ c0).drop (d * op.part_size)).foldl crc16Update 0 =
      c0.foldl crc16Update dg := by
    rw [List.drop_append_of_le_length (by omega), List.foldl_append, ← hdg]
  have hplen' : (parts ++ c0).length = d * op.part_size + k + rl := by
    simp [hc0len, hlen]
  by_cases hlt : d * op.part_size + k < op.skip_bytes
  · -- still inside the skip region: only possible in part 0
    have hd0 : d = 0 := by
      rcases Nat.eq_zero_or_pos d with h | h
      · exact h
      · exfalso
        have : op.part_size ≤ d * op.part_size := by
          calc op.part_size = 1 * op.part_size := (Nat.one_mul _).symm
          _ ≤ d * op.part_size := Nat.mul_le_mul_right _ h
        omega
    have hdP : d * op.part_size = 0 := by rw [hd0]; ring
    have hmul : (d + 1) * op.part_size = d * op.part_size + op.part_size := by ring
    have hPle : op.part_size ≤ op.parts * op.part_size := by
      calc op.part_size = 1 * op.part_size := (Nat.one_mul _).symm
      _ ≤ op.parts * op.part_size := Nat.mul_le_mul_right _ hN
    by_cases hstr : d * op.part_size + k + rl > op.skip_bytes
    · -- the chunk straddles the end of the skip region
      simp only [if_pos hlt, if_pos hstr]
      have hsrc : (c0.drop (op.skip_bytes - k)).length = rl - (op.skip_bytes - k) := by
        simp [List.length_drop, hc0len]
      have hsrc2 : (c0.drop (op.skip_bytes - k)).take (rl - (op.skip_bytes - k)) =
          c0.drop (op.skip_bytes - k) := List.take_of_length_le (by omega)
      have hnoclip : ¬ (0 + (rl - (op.skip_bytes - k)) > dst.length) := by omega
      simp only [if_neg hnoclip]
      have hle : op.skip_bytes - k + (rl - (op.skip_bytes - k)) ≤ rl := by omega
      simp only [if_pos hle]
      have hwb : 0 + ((c0.drop (op.skip_bytes - k)).take (rl - (op.skip_bytes - k))).length ≤
          dst.length := by
        rw [hsrc2, hsrc]; omega
      rw [writeSlice_eq_some hwb]
      have hlen' : (dst.take 0 ++ (c0.drop (op.skip_bytes - k)).take (rl - (op.skip_bytes - k)) ++
          dst.drop (0 + ((c0.drop (op.skip_bytes - k)).take (rl - (op.skip_bytes - k))).length)).length
          = dst.length := by
        rw [hsrc2, hsrc]
        simp only [List.length_append, List.length_take, List.length_drop, List.take_zero,
          List.length_nil]
        omega
      have hagree' :
          (dst.take 0 ++ (c0.drop (op.skip_bytes - k)).take (rl - (op.skip_bytes - k)) ++
            dst.drop (0 + ((c0.drop (op.skip_bytes - k)).take (rl - (op.skip_bytes - k))).length)).take
              ((parts ++ c0).length - op.skip_bytes) = (parts ++ c0).drop op.skip_bytes := by
        rw [hsrc2, hplen']
        simp only [List.take_zero, List.nil_append]
        have h1 : d * op.part_size + k + rl - op.skip_bytes = rl - (op.skip_bytes - k) := by
          omega
        rw [h1, ← hsrc, List.take_left]
        have hdropP : parts.drop op.skip_bytes = [] := List.drop_of_length_le (by omega)
        rw [List.drop_append_eq_append_drop, hdropP]
        have h2 : op.skip_bytes - parts.length = op.skip_bytes - k := by omega
        rw [h2]
        simp
      by_cases hfin : k + rl = op.part_size
      · simp only [hfin, if_pos]
        refine ProcOut_of (IH _ _ ⟨hresp, ?_, ?_⟩ ⟨rfl, hlen'⟩) (StLens.rfl' _)
        · simp only
          rw [hlen']
          exact hop
        · simp only [PhaseInv, henv]
          exact ⟨hd, by omega, hdg'.symm, hagree'⟩
      · simp only [hfin, if_neg, reduceIte]
        refine ProcOut_of (IH _ _ ⟨hresp, ?_, ?_⟩ ⟨rfl, hlen'⟩) (StLens.rfl' _)
        · simp only
          rw [hlen']
          exact hop
        · simp only [PhaseInv, henv]
          exact ⟨hd, by omega, by omega, hdg'.symm, hagree'⟩
    · -- the whole chunk is inside the skip region
      simp only [if_pos hlt, if_neg hstr]
      have hnoclip : ¬ (0 + 0 > dst.length) := by omega
      simp only [if_neg hnoclip]
      have hle : 0 + 0 ≤ rl := by omega
      simp only [if_pos hle]
      have hwb : 0 + ((c0.drop 0).take 0).length ≤ dst.length := by simp
      rw [writeSlice_eq_some hwb]
      have hdst : dst.take 0 ++ (c0.drop 0).take 0 ++
          dst.drop (0 + ((c0.drop 0).take 0).length) = dst := by simp
      rw [hdst]
      have hagree' : dst.take ((parts ++ c0).length - op.skip_bytes) =
          (parts ++ c0).drop op.skip_bytes := by
        rw [hplen']
        have h0 : d * op.part_size + k + rl - op.skip_bytes = 0 := by omega
        rw [h0, List.take_zero, List.drop_of_length_le (by omega)]
      by_cases hfin : k + rl = op.part_size
      · simp only [hfin, if_pos]
        refine ProcOut_of (IH _ _ ⟨hresp, hop, ?_⟩ (StLens.rfl' _)) (StLens.rfl' _)
        simp only [PhaseInv, henv]
        exact ⟨hd, by omega, hdg'.symm, hagree'⟩
      · simp only [hfin, if_neg, reduceIte]
        refine ProcOut_of (IH _ _ ⟨hresp, hop, ?_⟩ (StLens.rfl' _)) (StLens.rfl' _)
        simp only [PhaseInv, henv]
        exact ⟨hd, by omega, by omega, hdg'.symm, hagree'⟩
  · -- already past the skip region
    simp only [if_neg hlt]
    have hge : op.skip_bytes ≤ d * op.part_size + k := by omega
    have hnoclip : ¬ (d * op.part_size + k - op.skip_bytes + rl > dst.length) := by omega
    simp only [if_neg hnoclip]
    have hle : 0 + rl ≤ rl := by omega
    simp only [if_pos hle]
    have hsrc : (c0.drop 0).take rl = c0 := by
      rw [List.drop_zero]
      exact List.take_of_length_le (by omega)
    have hwb : d * op.part_size + k - op.skip_bytes + ((c0.drop 0).take rl).length ≤
        dst.length := by
      rw [hsrc, hc0len]; omega
    rw [writeSlice_eq_some hwb]
    set ds := d * op.part_size + k - op.skip_bytes with hds
    have hlen' : (dst.take ds ++ (c0.drop 0).take rl ++
        dst.drop (ds + ((c0.drop 0).take rl).length)).length = dst.length := by
      rw [hsrc, hc0len]
      simp only [List.length_append, List.length_take, List.length_drop]
      have h1 : ds ⊓ dst.length = ds := Nat.min_eq_left (by omega)
      rw [h1]
      omega
    have htake : (dst.take ds).length = ds := by
      simp only [List.length_take]
      exact Nat.min_eq_left (by omega)
    have hagree' : (dst.take ds ++ (c0.drop 0).take rl ++
        dst.drop (ds + ((c0.drop 0).take rl).length)).take
          ((parts ++ c0).length - op.skip_bytes) = (parts ++ c0).drop op.skip_bytes := by
      rw [hsrc, hplen']
      have h3 : d * op.part_size + k + rl - op.skip_bytes =
          (dst.take ds).length + c0.length := by
        rw [htake, hc0len]; omega
      rw [h3, take_write_middle]
      rw [List.drop_append_of_le_length (by omega)]
      have h2 : dst.take ds = parts.drop op.skip_bytes := by
        have h4 : parts.length - op.skip_bytes = ds := by omega
        have h5 := hagree
        unfold DestAgrees at h5
        simp only at h5
        rw [h4] at h5
        exact h5
      rw [h2]
    by_cases hfin : k + rl = op.part_size
    · simp only [hfin, if_pos]
      refine ProcOut_of (IH _ _ ⟨by simpa using hresp, ?_, ?_⟩ ⟨rfl, hlen'⟩) (StLens.rfl' _)
      · simp only
        rw [hlen']
        exact hop
      · simp only [PhaseInv, henv]
        refine ⟨hd, ?_, by rw [hdg'], hagree'⟩
        rw [hplen']
        have : (d + 1) * op.part_size = d * op.part_size + op.part_size := by ring
        omega
    · simp only [hfin, if_neg, reduceIte]
      refine ProcOut_of (IH _ _ ⟨by simpa using hresp, ?_, ?_⟩ ⟨rfl, hlen'⟩) (StLens.rfl' _)
      · simp only
        rw [hlen']
        exact hop
      · simp only [PhaseInv, henv]
        exact ⟨hd, by omega, by omega, by rw [hdg'], hagree'⟩

theorem step_crc (env : Env) (f e d : Nat) (b0 : Option Nat) (st : St)
    (b : Nat) (rest : List Nat)
    (hp : st.phase = .receiveCrc e d b0) (hInv : Inv env st)
    (IH : ∀ st₁ c₁, Inv env st₁ → StLens st st₁ →
      ProcOut env st (processBytes env f st₁ c₁)) :
    ProcOut env st (processBytes env (f + 1) st (b :: rest)) := by
  obtain ⟨ph, resp, dst, parts⟩ := st
  simp only at hp
  subst hp
  obtain ⟨hresp, hop, hphase⟩ := hInv
  rw [PhaseInv.eq_def] at hphase
  have hread : ∃ op, env.operation = some (.read op) := by
    rcases henv : env.operation with _ | op
    · rw [henv] at hphase; simp at hphase
    · cases op with
      | read o => exact ⟨o, rfl⟩
      | write => rw [henv] at hphase; simp at hphase
      | busySignal h => rw [henv] at hphase; simp at hphase
  obtain ⟨op, henv⟩ := hread
  have hval : ValidRead op dst.length := by
    rcases hop with hnone | ⟨op', hopr, hval⟩ | ⟨h, hopb⟩
    · rw [hnone] at henv; cases henv
    · rw [hopr] at henv
      cases henv
      exact hval
    · rw [hopb] at henv; cases henv
  rw [henv] at hphase
  simp only at hphase
  obtain ⟨hd, hlen, he, hagree⟩ := hphase
  simp only [processBytes]
  cases b0 with
  | none =>
    refine ProcOut_of (IH _ _ ⟨hresp, hop, ?_⟩ (StLens.rfl' _)) (StLens.rfl' _)
    simp only [PhaseInv, henv]
    exact ⟨hd, hlen, he, hagree⟩
  | some c0 =>
    simp only [henv]
    by_cases hok : c0 * 256 + b = e ∨ op.crc_enabled = false
    · simp only [hok, if_pos]
      by_cases hfin : d + 1 = op.parts
      · simp only [hfin, if_pos]
        refine ⟨StLens.rfl' _, ?_⟩
        simp only [SuccessInv, henv]
        constructor
        · rw [hlen, hfin]
        · -- destination complete: the take covers the whole list
          have hdl : dst.length = op.parts * op.part_size - op.skip_bytes := by
            have := hval.2.2; omega
          have : parts.length - op.skip_bytes = dst.length := by
            rw [hlen, hfin, hdl]
          rw [DestAgrees] at hagree
          rw [← hagree, this, List.take_length]
      · simp only [hfin, if_neg, reduceIte]
        refine ProcOut_of (IH _ _ ⟨hresp, hop, ?_⟩ (StLens.rfl' _)) (StLens.rfl' _)
        simp only [PhaseInv, henv]
        exact ⟨by omega, hlen, hagree⟩
    · simp only [hok, if_neg, reduceIte]
      refine ⟨StLens.rfl' _, ?_⟩
      simp only [FailInv]
      refine ⟨op, d, c0, henv, ?_, hd, ?_, hlen⟩
      · cases hce : op.crc_enabled with
        | false => exact absurd (Or.inr hce) hok
        | true => rfl
      · rw [he]; rfl

/-- Main interpreter preservation theorem: from any state satisfying the
invariant, one inner-loop pass keeps the invariant, never panics, preserves
both buffer lengths, and its terminal outcomes carry the success/failure
guarantees. -/
theorem processBytes_out (env : Env) :
    ∀ (f : Nat) (st : St) (c : List Nat), Inv env st →
      ProcOut env st (processBytes env f st c)
  | f, st, [] => fun hInv => by
      simp only [processBytes]
      exact ⟨hInv, StLens.rfl' st⟩
  | 0, st, b :: rest => fun _ => by
      simp only [processBytes]
      exact trivial
  | f + 1, st, b :: rest => fun hInv => by
      have IH : ∀ st₁ c₁, Inv env st₁ → StLens st st₁ →
          ProcOut env st (processBytes env f st₁ c₁) := fun st₁ c₁ h hl =>
        ProcOut_of (processBytes_out env f st₁ c₁ h) hl
      cases hp : st.phase with
      | sendCommand k => exact step_sendCommand env f k st b rest hp hInv IH
      | receiveResponseStart dr => exact step_rrs env f dr st b rest hp hInv IH
      | receiveResponse k => exact step_rResp env f k st b rest hp hInv IH
      | waitUntilNotBusy bb => exact step_busy env f bb st b rest hp hInv IH
      | receiveStartBlockToken d => exact step_token env f d st b rest hp hInv IH
      | receiveData dg d k => exact step_data env f dg d k st b rest hp hInv IH
      | receiveCrc e d b0 => exact step_crc env f e d b0 st b rest hp hInv IH
      | writeData n =>
        exfalso
        have h := hInv.2.2
        rw [PhaseInv.eq_def, hp] at h
        rcases henv : env.operation with _ | o
        · rw [henv] at h; simp at h
        · rw [henv] at h; cases o <;> simp at h

/-- The planner never hits a todo!()/unreachable!() arm from a state
satisfying the invariant. -/
theorem planner_some (env : Env) (bufferLen : Nat) (st : St) (hInv : Inv env st) :
    (bytesToTransfer env bufferLen st.response.length st.dest.length st.phase).isSome := by
  obtain ⟨hresp, hop, hphase⟩ := hInv
  have htail : ∃ t, tailCost env.operation st.dest.length = some t := by
    rcases hop with hnone | ⟨op, hopr, hval⟩ | ⟨h, hopb⟩
    · exact ⟨0, by simp [hnone, tailCost]⟩
    · exact ⟨readTailPerPart op st.dest.length * op.parts, by simp [hopr, tailCost]⟩
    · exact ⟨h, by simp [hopb, tailCost]⟩
  obtain ⟨t, ht⟩ := htail
  rw [PhaseInv.eq_def] at hphase
  cases hp : st.phase with
  | sendCommand k => simp [bytesToTransfer, optimisticLen, ht]
  | receiveResponseStart dr => simp [bytesToTransfer, optimisticLen, ht]
  | receiveResponse k => simp [bytesToTransfer, optimisticLen, ht]
  | waitUntilNotBusy bb =>
    rw [hp] at hphase
    rcases henv : env.operation with _ | o
    · rw [henv] at hphase; simp at hphase
    · cases o with
      | read o => rw [henv] at hphase; simp at hphase
      | write => rw [henv] at hphase; simp at hphase
      | busySignal h => simp [bytesToTransfer, optimisticLen, henv]
  | receiveStartBlockToken d =>
    rw [hp] at hphase
    rcases henv : env.operation with _ | o
    · rw [henv] at hphase; simp at hphase
    · cases o with
      | read o => simp [bytesToTransfer, optimisticLen, henv]
      | write => rw [henv] at hphase; simp at hphase
      | busySignal h => rw [henv] at hphase; simp at hphase
  | receiveData dg d k =>
    rw [hp] at hphase
    rcases henv : env.operation with _ | o
    · rw [henv] at hphase; simp at hphase
    · cases o with
      | read o => simp [bytesToTransfer, optimisticLen, henv]
      | write => rw [henv] at hphase; simp at hphase
      | busySignal h => rw [henv] at hphase; simp at hphase
  | receiveCrc e d b0 =>
    rw [hp] at hphase
    rcases henv : env.operation with _ | o
    · rw [henv] at hphase; simp at hphase
    · cases o with
      | read o => simp [bytesToTransfer, optimisticLen, henv]
      | write => rw [henv] at hphase; simp at hphase
      | busySignal h => rw [henv] at hphase; simp at hphase
  | writeData n =>
    rw [hp] at hphase
    rcases henv : env.operation with _ | o
    · rw [henv] at hphase; simp at hphase
    · rw [henv] at hphase; cases o <;> simp at hphase

/-- The guarantee a whole run carries: terminal states keep the buffer
lengths and the success/failure facts, the only reachable panic is the
planner's zero-length assertion, and a run that stops because the chunk
list ran out is still in an invariant state. -/
def RunOut (env : Env) (st : St) : RunResult → Prop
  | .ok st' => StLens st st' ∧ SuccessInv env st'
  | .err e st' => StLens st st' ∧ FailInv env e st'
  | .crash k _ => k = .assertZeroTransfer
  | .pending st' => Inv env st' ∧ StLens st st'
  | .spin => True

theorem RunOut_of {env : Env} {st st₁ : St} {r : RunResult}
    (h : RunOut env st₁ r) (hl : StLens st st₁) : RunOut env st r := by
  cases r with
  | ok st' => exact ⟨StLens.trans' hl h.1, h.2⟩
  | err e st' => exact ⟨StLens.trans' hl h.1, h.2⟩
  | crash k st' => exact h
  | pending st' => exact ⟨h.1, StLens.trans' hl h.2⟩
  | spin => exact h

/-- Run-level guarantee for card_command. -/
theorem card_command_out (env : Env) (bufferLen : Nat) (stream : List Nat) :
    ∀ (f : Nat) (st : St) (pos : Nat), Inv env st →
      RunOut env st (card_command env bufferLen stream f st pos)
  | 0, st, pos => fun _ => by
      simp only [card_command]
      exact trivial
  | f + 1, st, pos => fun hInv => by
      simp only [card_command]
      obtain ⟨n, hplan⟩ := Option.isSome_iff_exists.mp (planner_some env bufferLen st hInv)
      rw [hplan]
      by_cases hz : n = 0
      · simp only [hz, if_pos]
        exact rfl
      · simp only [hz, if_neg, reduceIte]
        have hpo := processBytes_out env (f + 1) st
          ((List.range n).map (fun i => stream.getD (pos + i) 0xFF)) hInv
        rcases hres : processBytes env (f + 1) st
          ((List.range n).map (fun i => stream.getD (pos + i) 0xFF)) with
          st' | st' | ⟨e, st'⟩ | ⟨kk, st'⟩ | _
        · rw [hres] at hpo
          simp only
          exact RunOut_of (card_command_out env bufferLen stream f st' (pos + n)
            hpo.1) hpo.2
        · rw [hres] at hpo
          exact ⟨hpo.1, hpo.2⟩
        · rw [hres] at hpo
          exact ⟨hpo.1, hpo.2⟩
        · rw [hres] at hpo
          exact absurd hpo (by simp [ProcOut])
        · exact trivial

/-- Run-level guarantee for the chunk-feeding harness. -/
theorem runChunks_out (env : Env) :
    ∀ (f : Nat) (st : St) (cs : List (List Nat)), Inv env st →
      RunOut env st (runChunks env f st cs)
  | f, st, [] => fun hInv => by
      simp only [runChunks]
      exact ⟨hInv, StLens.rfl' st⟩
  | 0, st, c :: cs => fun _ => by
      simp only [runChunks]
      exact trivial
  | f + 1, st, c :: cs => fun hInv => by
      simp only [runChunks]
      have hpo := processBytes_out env (f + 1) st c hInv
      rcases hres : processBytes env (f + 1) st c with st' | st' | ⟨e, st'⟩ | ⟨kk, st'⟩ | _
      · rw [hres] at hpo
        exact RunOut_of (runChunks_out env f st' cs hpo.1) hpo.2
      · rw [hres] at hpo
        exact ⟨hpo.1, hpo.2⟩
      · rw [hres] at hpo
        exact ⟨hpo.1, hpo.2⟩
      · rw [hres] at hpo
        exact absurd hpo (by simp [ProcOut])
      · exact trivial

/-! ## The command framer obligations (claim C9) -/

theorem foldl_lt_128 (f : Nat → Nat → Nat) (h : ∀ a b, f a b < 128) :
    ∀ (l : List Nat) (a : Nat), a < 128 → l.foldl f a < 128
  | [], a, ha => ha
  | b :: l, a, ha => foldl_lt_128 f h l (f a b) (h a b)

theorem foldl_lt_128_ne (f : Nat → Nat → Nat) (h : ∀ a b, f a b < 128) :
    ∀ (l : List Nat) (a : Nat), l ≠ [] → l.foldl f a < 128
  | [b], a, _ => h a b
  | b :: c :: l, a, _ => foldl_lt_128_ne f h (c :: l) (f a b) (by simp)

theorem crc7UpdateBit_lt (reg m : Nat) : crc7UpdateBit reg m < 128 := by
  have h1 : (reg <<< 1) &&& 0x7F < 128 := by
    have := Nat.and_pow_two_sub_one_eq_mod (reg <<< 1) 7
    norm_num at this
    omega
  unfold crc7UpdateBit
  dsimp only
  split
  · exact Nat.xor_lt_two_pow (n := 7) h1 (by norm_num)
  · exact h1

theorem crc7UpdateByte_lt (reg b : Nat) : crc7UpdateByte reg b < 128 := by
  unfold crc7UpdateByte
  exact foldl_lt_128_ne _ (fun a c => crc7UpdateBit_lt a _) _ _ (by decide)

theorem crc7_lt (bytes : List Nat) : crc7 bytes < 128 := by
  unfold crc7
  exact foldl_lt_128 _ (fun a c => crc7UpdateByte_lt a c) bytes 0 (by norm_num)

theorem shiftLeft_or_one (x : Nat) : (x <<< 1) ||| 1 = 2 * x + 1 := by
  have h1 : x <<< 1 = Nat.bit false x := by
    simp [Nat.bit_val, Nat.shiftLeft_eq, Nat.mul_comm]
  have h2 : (1 : Nat) = Nat.bit true 0 := by simp [Nat.bit_val]
  rw [h1, h2, Nat.lor_bit]
  simp [Nat.bit_val]

theorem or64_and_128 (x : Nat) (h : x < 64) : (64 ||| x) &&& 128 = 0 := by
  have hb : (64 ||| x).testBit 7 = false := by
    rw [Nat.testBit_or]
    rw [Nat.testBit_lt_two_pow (by norm_num), Nat.testBit_lt_two_pow (by omega)]
    rfl
  have := Nat.and_two_pow (64 ||| x) 7
  norm_num [hb] at this
  omega

theorem or64_and_64 (x : Nat) (h : x < 64) : (64 ||| x) &&& 64 = 64 := by
  have hb : (64 ||| x).testBit 6 = true := by
    rw [Nat.testBit_or]
    have h64 : Nat.testBit 64 6 = true := by decide
    rw [h64]
    rfl
  have := Nat.and_two_pow (64 ||| x) 6
  norm_num [hb] at this
  omega

/-- C9: for every index below 64 and every 32-bit argument, format_command
yields exactly six bytes: byte 0 is 0x40 OR the index (bit 7 clear, bit 6
set), bytes 1..4 are the argument big-endian, and byte 5 is the CRC-7/MMC
of the first five bytes shifted left once with the end bit set, so its
low bit is always 1 and the CRC-7 re-verifies from the stored byte. -/
theorem format_command_layout (idx arg : Nat) (hidx : idx < 64) (harg : arg < 2 ^ 32) :
    (format_command idx arg).length = 6 ∧
    (format_command idx arg).getD 0 0 = 0x40 ||| idx ∧
    (format_command idx arg).getD 0 0 &&& 0x80 = 0 ∧
    (format_command idx arg).getD 0 0 &&& 0x40 = 0x40 ∧
    (format_command idx arg).getD 1 0 = (arg >>> 24) &&& 0xFF ∧
    (format_command idx arg).getD 2 0 = (arg >>> 16) &&& 0xFF ∧
    (format_command idx arg).getD 3 0 = (arg >>> 8) &&& 0xFF ∧
    (format_command idx arg).getD 4 0 = arg &&& 0xFF ∧
    (format_command idx arg).getD 5 0 =
      (crc7 ((format_command idx arg).take 5)) <<< 1 ||| 1 ∧
    (format_command idx arg).getD 5 0 &&& 1 = 1 ∧
    (format_command idx arg).getD 5 0 >>> 1 = crc7 ((format_command idx arg).take 5) := by
  have hmask : idx &&& 0x3F = idx := by
    have h := Nat.and_pow_two_sub_one_eq_mod idx 6
    norm_num at h
    rw [h]
    omega
  have e0 : setBit (setBit 0 7 false) 6 true = 64 := by decide
  have hbyte0 : setCommandIndex (setBit (setBit 0 7 false) 6 true) idx = 64 ||| idx := by
    rw [e0]
    unfold setCommandIndex
    rw [hmask]
    have e1 : (64 : Nat) &&& 192 = 64 := by decide
    rw [e1]
  set c := crc7 (setCommandIndex (setBit (setBit 0 7 false) 6 true) idx :: toBeBytes32 arg)
    with hcdef
  have hclt : c < 128 := crc7_lt _
  have h127 : c &&& 0x7F = c := by
    have h := Nat.and_pow_two_sub_one_eq_mod c 7
    norm_num at h
    rw [h]
    omega
  have hbyte5 : setBit (setCrc7 0 c) 0 true = 2 * c + 1 := by
    unfold setCrc7 setBit
    rw [h127]
    norm_num
    rw [shiftLeft_or_one]
  have htake : (format_command idx arg).take 5 =
      setCommandIndex (setBit (setBit 0 7 false) 6 true) idx :: toBeBytes32 arg := by
    simp [format_command, toBeBytes32]
  have hcrc_take : crc7 ((format_command idx arg).take 5) = c := by
    rw [htake, hcdef]
  refine ⟨by simp [format_command, toBeBytes32], ?_, ?_, ?_, ?_, ?_, ?_, ?_, ?_, ?_, ?_⟩
  · simp [format_command, toBeBytes32, hbyte0]
  · simp [format_command, toBeBytes32, hbyte0]
    exact or64_and_128 idx hidx
  · simp [format_command, toBeBytes32, hbyte0]
    exact or64_and_64 idx hidx
  · simp [format_command, toBeBytes32]
  · simp [format_command, toBeBytes32]
  · simp [format_command, toBeBytes32]
  · simp [format_command, toBeBytes32]
  · rw [hcrc_take]
    simp only [format_command, toBeBytes32]
    rw [shiftLeft_or_one]
    simpa using hbyte5
  · have h5 : (format_command idx arg).getD 5 0 = 2 * c + 1 := by
      simp only [format_command, toBeBytes32]
      simpa using hbyte5
    rw [h5, Nat.and_one_is_mod]
    omega
  · have h5 : (format_command idx arg).getD 5 0 = 2 * c + 1 := by
      simp only [format_command, toBeBytes32]
      simpa using hbyte5
    rw [h5, hcrc_take, Nat.shiftRight_eq_div_pow]
    omega

theorem format_command_layout_witness :
    (17 : Nat) < 64 ∧ (0x12345678 : Nat) < 2 ^ 32 ∧
      (format_command 17 0x12345678).getD 0 0 = 0x40 ||| 17 ∧
      (format_command 17 0x12345678).getD 5 0 >>> 1 =
        crc7 ((format_command 17 0x12345678).take 5) :=
  ⟨by decide, by decide,
    (format_command_layout 17 0x12345678 (by decide) (by decide)).2.1,
    (format_command_layout 17 0x12345678 (by decide) (by decide)).2.2.2.2.2.2.2.2.2.2⟩

/-! ## Run-level consequences of the invariant (claims C1, C8, C2, C7, C3) -/

theorem initSt_inv (env : Env) (response dest : List Nat)
    (hresp : 1 ≤ response.length) (hop : GoodOp env dest.length) :
    Inv env (initSt response dest) := by
  refine ⟨hresp, hop, ?_⟩
  rw [PhaseInv.eq_def]
  simp [initSt]

/-- C1: for every Read operation satisfying the preconditions (at least
one part, skip prefix smaller than the part size, destination length
N*P - S; the claim's P = 512 is one instance), a card_command call that
returns success leaves the destination holding exactly the N*P - S bytes
of the concatenated received parts starting at byte offset S, in order. -/
theorem read_success_destination (env : Env) (op : ReadOperation)
    (bufferLen f pos : Nat) (stream response dest : List Nat) (st' : St)
    (hop : env.operation = some (.read op))
    (hresp : 1 ≤ response.length)
    (hparts : 1 ≤ op.parts) (hskip : op.skip_bytes < op.part_size)
    (hdest : dest.length + op.skip_bytes = op.parts * op.part_size)
    (hrun : card_command env bufferLen stream f (initSt response dest) pos = .ok st') :
    st'.dest.length = op.parts * op.part_size - op.skip_bytes ∧
      st'.receivedParts.length = op.parts * op.part_size ∧
      st'.dest = st'.receivedParts.drop op.skip_bytes := by
  have hInv : Inv env (initSt response dest) :=
    initSt_inv env response dest hresp (Or.inr (Or.inl ⟨op, hop, hparts, hskip, hdest⟩))
  have h := card_command_out env bufferLen stream f (initSt response dest) pos hInv
  rw [hrun] at h
  obtain ⟨⟨hrl, hdl⟩, hsucc⟩ := h
  rw [SuccessInv.eq_def, hop] at hsucc
  simp only [initSt] at hdl
  exact ⟨by omega, hsucc.1, hsucc.2⟩

theorem read_success_destination_witness :
    card_command ⟨0, some (.read ⟨1, 2, 4, true, 3⟩), false, false⟩ 64
        [0xFF, 0xFF, 0xFF, 0xFF, 0xFF, 0xFF, 0x00, 0xFE, 1, 2, 3, 4, 13, 3,
          0xFF, 0xFE, 5, 6, 7, 8, 22, 122] 20 (initSt [0xAA] [9, 9, 9, 9, 9]) 0 =
      .ok ⟨.receiveCrc 5754 1 (some 22), [0], [4, 5, 6, 7, 8],
        [1, 2, 3, 4, 5, 6, 7, 8]⟩ ∧
    St.dest ⟨.receiveCrc 5754 1 (some 22), [0], [4, 5, 6, 7, 8],
        [1, 2, 3, 4, 5, 6, 7, 8]⟩ =
      (St.receivedParts ⟨.receiveCrc 5754 1 (some 22), [0], [4, 5, 6, 7, 8],
        [1, 2, 3, 4, 5, 6, 7, 8]⟩).drop 3 :=
  ⟨by decide,
    (read_success_destination ⟨0, some (.read ⟨1, 2, 4, true, 3⟩), false, false⟩
      ⟨1, 2, 4, true, 3⟩ 64 20 0
      [0xFF, 0xFF, 0xFF, 0xFF, 0xFF, 0xFF, 0x00, 0xFE, 1, 2, 3, 4, 13, 3,
        0xFF, 0xFE, 5, 6, 7, 8, 22, 122] [0xAA] [9, 9, 9, 9, 9]
      ⟨.receiveCrc 5754 1 (some 22), [0], [4, 5, 6, 7, 8], [1, 2, 3, 4, 5, 6, 7, 8]⟩
      rfl (by decide) (by decide) (by decide) (by decide) (by decide)).2.2⟩

/-- C8: under the buffer preconditions, card_command never writes out of
bounds: no run outcome is an out-of-bounds-write panic (nor a
todo/unreachable panic), and in every success or typed-failure outcome
both caller buffers keep exactly the lengths they were given, so every
response-slot write stayed within response_len and every destination
write within destination_len. -/
theorem no_out_of_bounds_writes (env : Env) (bufferLen f pos : Nat)
    (stream response dest : List Nat)
    (hresp : 1 ≤ response.length) (hop : GoodOp env dest.length) :
    (∀ k st', card_command env bufferLen stream f (initSt response dest) pos =
        .crash k st' → k ≠ .oobWrite ∧ k ≠ .todoOrUnreachable) ∧
    (∀ st', (card_command env bufferLen stream f (initSt response dest) pos = .ok st' ∨
        (∃ e, card_command env bufferLen stream f (initSt response dest) pos =
          .err e st')) →
      st'.response.length = response.length ∧ st'.dest.length = dest.length) := by
  have h := card_command_out env bufferLen stream f (initSt response dest) pos
    (initSt_inv env response dest hresp hop)
  constructor
  · intro k st' hk
    rw [hk] at h
    simp only [RunOut] at h
    subst h
    exact ⟨by decide, by decide⟩
  · intro st' hc
    rcases hc with hok | ⟨e, herr⟩
    · rw [hok] at h
      simp only [RunOut, StLens, initSt] at h
      exact ⟨h.1.1, h.1.2⟩
    · rw [herr] at h
      simp only [RunOut, StLens, initSt] at h
      exact ⟨h.1.1, h.1.2⟩

theorem no_out_of_bounds_writes_witness :
    (1 ≤ ([0xAA] : List Nat).length) ∧
    ((St.response ⟨.receiveCrc 5754 1 (some 22), [0], [4, 5, 6, 7, 8],
        [1, 2, 3, 4, 5, 6, 7, 8]⟩).length = ([0xAA] : List Nat).length ∧
      (St.dest ⟨.receiveCrc 5754 1 (some 22), [0], [4, 5, 6, 7, 8],
        [1, 2, 3, 4, 5, 6, 7, 8]⟩).length = ([9, 9, 9, 9, 9] : List Nat).length) :=
  ⟨by decide,
    (no_out_of_bounds_writes ⟨0, some (.read ⟨1, 2, 4, true, 3⟩), false, false⟩ 64 20 0
      [0xFF, 0xFF, 0xFF, 0xFF, 0xFF, 0xFF, 0x00, 0xFE, 1, 2, 3, 4, 13, 3,
        0xFF, 0xFE, 5, 6, 7, 8, 22, 122] [0xAA] [9, 9, 9, 9, 9] (by decide)
      (by right; left
          exact ⟨⟨1, 2, 4, true, 3⟩, rfl, by decide, by decide, by decide⟩)).2
      ⟨.receiveCrc 5754 1 (some 22), [0], [4, 5, 6, 7, 8], [1, 2, 3, 4, 5, 6, 7, 8]⟩
      (Or.inl (by decide))⟩

/-- C2: for a CRC-enabled Read, InvalidCrc is decided exactly at the
ReceiveCrc step: with the first CRC byte in hand, one interpreter pass
fails with InvalidCrc, leaving the state (and hence parts_done)
untouched, precisely when the received big-endian CRC differs from the
expected one while crc_enabled; on a match (or with checking disabled) it
instead completes or advances to the next part. Moreover every run-level
InvalidCrc failure arises this way: the expected CRC is the CRC-16/XMODEM
of the offending part's raw received bytes (skip-prefix and tail bytes
included) and parts_done has not counted that part. -/
theorem invalid_crc_characterisation (env : Env) (op : ReadOperation)
    (hop : env.operation = some (.read op)) :
    (∀ (fuel e d b0 b : Nat) (rest : List Nat) (st : St),
       st.phase = .receiveCrc e d (some b0) →
       (¬ (b0 * 256 + b = e ∨ op.crc_enabled = false) →
         processBytes env (fuel + 1) st (b :: rest) = .failure .invalidCrc st) ∧
       (b0 * 256 + b = e ∨ op.crc_enabled = false →
         processBytes env (fuel + 1) st (b :: rest) =
           if d + 1 = op.parts then .success st
           else processBytes env fuel
             { st with phase := .receiveStartBlockToken (d + 1) } rest)) ∧
    (∀ (bufferLen f pos : Nat) (stream response dest : List Nat) (st' : St),
       1 ≤ response.length → 1 ≤ op.parts → op.skip_bytes < op.part_size →
       dest.length + op.skip_bytes = op.parts * op.part_size →
       card_command env bufferLen stream f (initSt response dest) pos =
         .err .invalidCrc st' →
       op.crc_enabled = true ∧
       ∃ d b0, d < op.parts ∧
         st'.phase = .receiveCrc (crc16 (st'.receivedParts.drop (d * op.part_size)))
           d (some b0) ∧
         st'.receivedParts.length = (d + 1) * op.part_size) := by
  constructor
  · intro fuel e d b0 b rest st hp
    obtain ⟨ph, resp, dst, parts⟩ := st
    simp only at hp
    subst hp
    constructor
    · intro hmis
      simp only [processBytes, hop, hmis, if_neg, reduceIte]
    · intro hok
      simp only [processBytes, hop, hok, if_pos]
  · intro bufferLen f pos stream response dest st' hresp hparts hskip hdest hrun
    have hInv : Inv env (initSt response dest) :=
      initSt_inv env response dest hresp
        (Or.inr (Or.inl ⟨op, hop, hparts, hskip, hdest⟩))
    have h := card_command_out env bufferLen stream f (initSt response dest) pos hInv
    rw [hrun] at h
    obtain ⟨_, hfail⟩ := h
    simp only [FailInv] at hfail
    obtain ⟨op', d, b0, hop', hce, hd, hph, hlen⟩ := hfail
    rw [hop] at hop'
    simp only [Option.some.injEq, CardCommandOperation.read.injEq] at hop'
    subst hop'
    exact ⟨hce, d, b0, hd, hph, hlen⟩

theorem invalid_crc_characterisation_witness :
    St.phase ⟨.receiveCrc 999 0 (some 1), [0], [9, 9, 9, 9, 9], [1, 2, 3, 4]⟩ =
      .receiveCrc 999 0 (some 1) ∧
    processBytes ⟨0, some (.read ⟨1, 2, 4, true, 3⟩), false, false⟩ 5
        ⟨.receiveCrc 999 0 (some 1), [0], [9, 9, 9, 9, 9], [1, 2, 3, 4]⟩ [7] =
      .failure .invalidCrc
        ⟨.receiveCrc 999 0 (some 1), [0], [9, 9, 9, 9, 9], [1, 2, 3, 4]⟩ :=
  ⟨rfl,
    ((invalid_crc_characterisation ⟨0, some (.read ⟨1, 2, 4, true, 3⟩), false, false⟩
        ⟨1, 2, 4, true, 3⟩ rfl).1 4 999 0 1 7 []
        ⟨.receiveCrc 999 0 (some 1), [0], [9, 9, 9, 9, 9], [1, 2, 3, 4]⟩ rfl).1
      (by decide)⟩

theorem scanR1_none_iff (c : List Nat) (dr : Bool) :
    (scanR1 c dr).1 = none ↔ ∀ x ∈ c, x &&& 0x80 ≠ 0 := by
  induction c generalizing dr with
  | nil => simp [scanR1]
  | cons b rest ih =>
    rw [scanR1]
    by_cases hb : b ≠ 0xFF ∧ b &&& 0x80 = 0
    · rw [if_pos hb]
      constructor
      · intro h
        exact Option.noConfusion h
      · intro h
        exact absurd hb.2 (h b (List.mem_cons_self b rest))
    · have hbb : b &&& 0x80 ≠ 0 := by
        by_cases hff : b = 0xFF
        · subst hff; decide
        · intro h0; exact hb ⟨hff, h0⟩
      rw [if_neg hb]
      rcases hsc : scanR1 rest (dr || (b != 0xFF)) with ⟨oi, dr2⟩
      have ihr := ih (dr || (b != 0xFF))
      rw [hsc] at ihr
      cases oi with
      | none =>
        dsimp only
        dsimp only at ihr
        constructor
        · intro _ x hx
          rcases List.mem_cons.mp hx with rfl | hx'
          · exact hbb
          · exact ihr.mp rfl x hx'
        · intro _
          rfl
      | some i =>
        dsimp only
        dsimp only at ihr
        constructor
        · intro h
          exact Option.noConfusion h
        · intro h
          exact Option.noConfusion
            (ihr.mpr (fun x hx => h x (List.mem_cons_of_mem b hx)))

theorem scanR1_none_flag (c : List Nat) (dr : Bool) (h : (scanR1 c dr).1 = none) :
    (scanR1 c dr).2 = (dr || c.any (fun x => x != 0xFF)) := by
  induction c generalizing dr with
  | nil => simp [scanR1]
  | cons b rest ih =>
    rw [scanR1] at h ⊢
    by_cases hb : b ≠ 0xFF ∧ b &&& 0x80 = 0
    · rw [if_pos hb] at h
      exact Option.noConfusion h
    · rw [if_neg hb] at h ⊢
      rcases hsc : scanR1 rest (dr || (b != 0xFF)) with ⟨oi, dr2⟩
      cases oi with
      | none =>
        dsimp only at h ⊢
        have ihr := ih (dr || (b != 0xFF))
        rw [hsc] at ihr
        have h2 := ihr rfl
        dsimp only at h2
        rw [h2]
        simp [Bool.or_assoc]
      | some i =>
        rw [hsc] at h
        exact Option.noConfusion h

/-- C7: ResponseTimeout is decided exactly at the R1 scan: while awaiting
the response start, if every byte of the processed prefix has bit 7 set
(so no R1 byte is found; the prefix is exhausted), one interpreter pass
fails with ResponseTimeout precisely when the deadline oracle has
expired, otherwise it keeps scanning, and in both cases the carried
data_seen flag is true iff some byte different from 0xFF has been
observed; if instead the scan finds an R1 byte the engine moves to
response reception. Scan exhaustion is equivalent to every scanned byte
having bit 7 set, and at run level every ResponseTimeout failure implies
the deadline had expired. -/
theorem response_timeout_characterisation (env : Env) :
    (∀ (fuel : Nat) (dr : Bool) (st : St) (b : Nat) (rest : List Nat),
       st.phase = .receiveResponseStart dr →
       ((∀ x ∈ b :: rest, x &&& 0x80 ≠ 0) →
          processBytes env (fuel + 1) st (b :: rest) =
            if env.respExpired then
              .failure (.receiveResponseTimeout
                (dr || (b :: rest).any (fun x => x != 0xFF))) st
            else .next { st with phase :=
              .receiveResponseStart (dr || (b :: rest).any (fun x => x != 0xFF)) }) ∧
       (∀ i dr2, scanR1 (b :: rest) dr = (some i, dr2) →
          processBytes env (fuel + 1) st (b :: rest) =
            processBytes env fuel { st with phase := .receiveResponse 0 }
              ((b :: rest).drop i))) ∧
    (∀ (c : List Nat) (dr : Bool),
       (scanR1 c dr).1 = none ↔ ∀ x ∈ c, x &&& 0x80 ≠ 0) ∧
    (∀ (bufferLen f pos : Nat) (stream response dest : List Nat) (st' : St)
       (flag : Bool),
       1 ≤ response.length → GoodOp env dest.length →
       card_command env bufferLen stream f (initSt response dest) pos =
         .err (.receiveResponseTimeout flag) st' →
       env.respExpired = true) := by
  refine ⟨?_, scanR1_none_iff, ?_⟩
  · intro fuel dr st b rest hp
    obtain ⟨ph, resp, dst, parts⟩ := st
    simp only at hp
    subst hp
    constructor
    · intro hall
      have hscan : (scanR1 (b :: rest) dr).1 = none := (scanR1_none_iff _ _).mpr hall
      have hflag := scanR1_none_flag (b :: rest) dr hscan
      rcases hsc : scanR1 (b :: rest) dr with ⟨oi, dr2⟩
      rw [hsc] at hscan hflag
      simp only at hscan hflag
      subst hscan
      simp only [processBytes]
      rw [hsc]
      simp only
      rw [hflag]
    · intro i dr2 hfound
      simp only [processBytes]
      rw [hfound]
  · intro bufferLen f pos stream response dest st' flag hresp hop hrun
    have h := card_command_out env bufferLen stream f (initSt response dest) pos
      (initSt_inv env response dest hresp hop)
    rw [hrun] at h
    exact h.2

theorem response_timeout_characterisation_witness :
    processBytes ⟨0, none, true, false⟩ 5 ⟨.receiveResponseStart false, [0xAA], [], []⟩
        [0xFF, 0x85] =
      .failure (.receiveResponseTimeout true)
        ⟨.receiveResponseStart false, [0xAA], [], []⟩ := by
  have h := ((response_timeout_characterisation ⟨0, none, true, false⟩).1 4 false
    ⟨.receiveResponseStart false, [0xAA], [], []⟩ 0xFF [0x85] rfl).1 (by decide)
  simpa using h

/-- A run in which the start token 0xFE is found within the processed
prefix and yet card_command fails with DataTimeout: the source checks the
per-block deadline after the token scan regardless of the scan's outcome
(the failing state's phase shows data reception had been entered). -/
theorem data_timeout_despite_token_cex :
    card_command ⟨0, some (.read ⟨1, 2, 4, true, 3⟩), false, true⟩ 64
        [0xFF, 0xFF, 0xFF, 0xFF, 0xFF, 0xFF, 0x00, 0xFE] 20
        (initSt [0xAA] [9, 9, 9, 9, 9]) 0 =
      .err (.receiveDataTimeout 0)
        ⟨.receiveData 0 0 0, [0], [9, 9, 9, 9, 9], []⟩ := by decide

/-- C3 (amended): while awaiting a data start token, the deadline check
happens after the token scan regardless of its outcome: if the scan finds
the token the engine fails with DataTimeout(parts_done) when the deadline
oracle has expired - even though the token was found - and only otherwise
transitions to data reception; if the scan exhausts the prefix it fails
with DataTimeout exactly when the deadline has expired and otherwise
schedules a further transfer. At run level every DataTimeout failure
implies the deadline had expired. -/
theorem data_timeout_characterisation (env : Env) (op : ReadOperation)
    (hop : env.operation = some (.read op)) :
    (∀ (fuel d : Nat) (st : St) (b : Nat) (rest : List Nat),
       st.phase = .receiveStartBlockToken d →
       (∀ i, scanToken (b :: rest) = .found i →
          processBytes env (fuel + 1) st (b :: rest) =
            if env.dataExpired then
              .failure (.receiveDataTimeout d) { st with phase := .receiveData 0 d 0 }
            else processBytes env fuel { st with phase := .receiveData 0 d 0 }
              ((b :: rest).drop (i + 1))) ∧
       (scanToken (b :: rest) = .exhausted →
          processBytes env (fuel + 1) st (b :: rest) =
            if env.dataExpired then .failure (.receiveDataTimeout d) st
            else .next st)) ∧
    (∀ (bufferLen f pos : Nat) (stream response dest : List Nat) (st' : St) (n : Nat),
       1 ≤ response.length → 1 ≤ op.parts → op.skip_bytes < op.part_size →
       dest.length + op.skip_bytes = op.parts * op.part_size →
       card_command env bufferLen stream f (initSt response dest) pos =
         .err (.receiveDataTimeout n) st' →
       env.dataExpired = true) := by
  constructor
  · intro fuel d st b rest hp
    obtain ⟨ph, resp, dst, parts⟩ := st
    simp only at hp
    subst hp
    constructor
    · intro i hfound
      simp only [processBytes]
      rw [hfound, hop]
    · intro hexh
      simp only [processBytes]
      rw [hexh, hop]
  · intro bufferLen f pos stream response dest st' n hresp hparts hskip hdest hrun
    have hInv : Inv env (initSt response dest) :=
      initSt_inv env response dest hresp
        (Or.inr (Or.inl ⟨op, hop, hparts, hskip, hdest⟩))
    have h := card_command_out env bufferLen stream f (initSt response dest) pos hInv
    rw [hrun] at h
    exact h.2

theorem data_timeout_characterisation_witness :
    processBytes ⟨0, some (.read ⟨1, 2, 4, true, 3⟩), false, true⟩ 5
        ⟨.receiveStartBlockToken 0, [0], [9, 9, 9, 9, 9], []⟩ [0xFE] =
      .failure (.receiveDataTimeout 0)
        ⟨.receiveData 0 0 0, [0], [9, 9, 9, 9, 9], []⟩ := by
  have h := ((data_timeout_characterisation
      ⟨0, some (.read ⟨1, 2, 4, true, 3⟩), false, true⟩ ⟨1, 2, 4, true, 3⟩ rfl).1 4 0
      ⟨.receiveStartBlockToken 0, [0], [9, 9, 9, 9, 9], []⟩ 0xFE [] rfl).1 0 (by decide)
  simpa using h

/-- The spec's planner table (its AwaitStartToken row), written from the
spec's words for comparison with the source's optimisticLen:
(H + P + 2) * (N - d) with P the part size. -/
def specAwaitStartTokenLen (op : ReadOperation) (d : Nat) : Nat :=
  (op.expected_bytes_until_data + op.part_size + 2) * (op.parts - d)

/-- The spec's planner table (its ReceiveData row), written from the
spec's words: (P - k) + 2 + (H + P + 2) * (N - d - 1). -/
def specReceiveDataLen (op : ReadOperation) (d k : Nat) : Nat :=
  (op.part_size - k) + 2 +
    (op.expected_bytes_until_data + op.part_size + 2) * (op.parts - d - 1)

/-- A read operation on which the source's planner disagrees with the
spec's table: two parts of 512 bytes, no skip (destination length 1024).
The source computes its per-part tail cost from the whole destination
length, not the part size, so it plans 2052 bytes where the table says
1028. -/
theorem planner_table_cex :
    optimisticLen ⟨0, some (.read ⟨0, 2, 512, true, 0⟩), false, false⟩ 4096 1 1024
        (.receiveStartBlockToken 0) = some 2052 ∧
    specAwaitStartTokenLen ⟨0, 2, 512, true, 0⟩ 0 = 1028 := by decide

/-- C4 (amended): the source's optimistic transfer length follows the
spec's table shape with the destination buffer length in place of the
part size: (H + destLen + 2) * (N - d) in the AwaitStartToken phase and
(destLen - k) + 2 + (H + destLen + 2) * (N - d - 1) in the ReceiveData
phase; consequently it coincides with the spec's table exactly in the
aligned case destLen = P (one part, no skip). -/
theorem planner_optimistic_len (env : Env) (op : ReadOperation)
    (bufferLen respLen destLen d k dg : Nat)
    (hop : env.operation = some (.read op)) :
    optimisticLen env bufferLen respLen destLen (.receiveStartBlockToken d) =
      some ((op.expected_bytes_until_data + destLen + 2) * (op.parts - d)) ∧
    optimisticLen env bufferLen respLen destLen (.receiveData dg d k) =
      some ((destLen - k) + 2 +
        (op.expected_bytes_until_data + destLen + 2) * (op.parts - d - 1)) ∧
    (destLen = op.part_size →
      optimisticLen env bufferLen respLen destLen (.receiveStartBlockToken d) =
        some (specAwaitStartTokenLen op d) ∧
      optimisticLen env bufferLen respLen destLen (.receiveData dg d k) =
        some (specReceiveDataLen op d k)) := by
  refine ⟨?_, ?_, ?_⟩
  · simp only [optimisticLen, hop, readTailPerPart]
  · simp only [optimisticLen, hop, readTailPerPart, Nat.sub_sub]
  · intro hP
    subst hP
    constructor
    · simp only [optimisticLen, hop, readTailPerPart, specAwaitStartTokenLen]
    · simp only [optimisticLen, hop, readTailPerPart, specReceiveDataLen, Nat.sub_sub]

theorem planner_optimistic_len_witness :
    optimisticLen ⟨0, some (.read ⟨1, 2, 4, true, 3⟩), false, false⟩ 64 1 5
        (.receiveStartBlockToken 0) = some ((1 + 5 + 2) * (2 - 0)) :=
  (planner_optimistic_len ⟨0, some (.read ⟨1, 2, 4, true, 3⟩), false, false⟩
    ⟨1, 2, 4, true, 3⟩ 64 1 5 0 0 0 rfl).1

/-- In the WaitUntilNotBusy phase a nonempty all-zero prefix is
reprocessed unchanged forever: the source's arm never advances
bytes_processed, so the inner loop exhausts every fuel bound. -/
theorem busy_all_zero_spin (env : Env) (bb : Nat) (st : St)
    (hp : st.phase = .waitUntilNotBusy bb) (b : Nat) (rest : List Nat)
    (hz : ∀ x ∈ b :: rest, x = 0) :
    ∀ f, processBytes env f st (b :: rest) = .spin := by
  intro f
  induction f generalizing bb st with
  | zero => rfl
  | succ f ih =>
    obtain ⟨ph, resp, dst, parts⟩ := st
    simp only at hp
    subst hp
    simp only [processBytes]
    have hany : (b :: rest).any (fun x => x != 0) = false := by
      simp only [List.any_eq_false]
      intro x hx
      simp [hz x hx]
    rw [hany]
    simp only [Bool.false_eq_true, if_false]
    exact ih ((b :: rest).length) ⟨.waitUntilNotBusy (b :: rest).length, resp, dst,
      parts⟩ rfl

theorem card_command_spin (env : Env) (bufferLen : Nat) (stream : List Nat)
    (st : St) (pos len : Nat)
    (hlen : bytesToTransfer env bufferLen st.response.length st.dest.length st.phase =
      some len) (hne : len ≠ 0)
    (hspin : ∀ g, processBytes env g st
      ((List.range len).map (fun i => stream.getD (pos + i) 0xFF)) = .spin) :
    ∀ f, card_command env bufferLen stream f st pos = .spin := by
  intro f
  cases f with
  | zero => rfl
  | succ f =>
    simp only [card_command]
    rw [hlen]
    simp only [hne, if_neg, reduceIte]
    rw [hspin (f + 1)]

theorem busy_stream_spin :
    ∀ g, processBytes ⟨1, some (.busySignal 1), false, false⟩ g (initSt [0xAA] [])
      [0xFF, 0xFF, 0xFF, 0xFF, 0xFF, 0xFF, 0xFF, 0x00, 0x00] = .spin := by
  have hz : ∀ x ∈ ([0] : List Nat), x = 0 := by intro x hx; simpa using hx
  have hbusy := busy_all_zero_spin ⟨1, some (.busySignal 1), false, false⟩ 0
    ⟨.waitUntilNotBusy 0, [0], [], []⟩ rfl 0 [] hz
  intro g
  cases g with
  | zero => rfl
  | succ g =>
    have e1 : processBytes ⟨1, some (.busySignal 1), false, false⟩ (g + 1)
        (initSt [0xAA] []) [0xFF, 0xFF, 0xFF, 0xFF, 0xFF, 0xFF, 0xFF, 0x00, 0x00] =
        processBytes ⟨1, some (.busySignal 1), false, false⟩ g
          ⟨.receiveResponseStart false, [0xAA], [], []⟩ [0xFF, 0x00, 0x00] := rfl
    rw [e1]
    cases g with
    | zero => rfl
    | succ g =>
      have e2 : processBytes ⟨1, some (.busySignal 1), false, false⟩ (g + 1)
          ⟨.receiveResponseStart false, [0xAA], [], []⟩ [0xFF, 0x00, 0x00] =
          processBytes ⟨1, some (.busySignal 1), false, false⟩ g
            ⟨.receiveResponse 0, [0xAA], [], []⟩ [0x00, 0x00] := rfl
      rw [e2]
      cases g with
      | zero => rfl
      | succ g =>
        have e3 : processBytes ⟨1, some (.busySignal 1), false, false⟩ (g + 1)
            ⟨.receiveResponse 0, [0xAA], [], []⟩ [0x00, 0x00] =
            processBytes ⟨1, some (.busySignal 1), false, false⟩ g
              ⟨.waitUntilNotBusy 0, [0], [], []⟩ [0x00] := rfl
        rw [e3]
        exact hbusy g

/-- C5 (code bug): a busy-signal card_command call whose stream carries
the response 0x00, two busy zero bytes, and then the release byte 0x01
never reaches the release byte: the first transfer's processed prefix
ends in zeroes, the WaitUntilNotBusy arm never advances bytes_processed,
and the inner loop reprocesses the same slice forever - the call exhausts
every fuel bound (the fuelled image of an infinite loop) instead of
consuming the prefix and scheduling a further transfer, so it never
returns success as the spec's busy-signal scenario expects. -/
theorem busy_zero_prefix_never_terminates (fuel : Nat) :
    card_command ⟨1, some (.busySignal 1), false, false⟩ 9
      [0xFF, 0xFF, 0xFF, 0xFF, 0xFF, 0xFF, 0xFF, 0x00, 0x00, 0x01] fuel
      (initSt [0xAA] []) 0 = .spin := by
  refine card_command_spin ⟨1, some (.busySignal 1), false, false⟩ 9
    [0xFF, 0xFF, 0xFF, 0xFF, 0xFF, 0xFF, 0xFF, 0x00, 0x00, 0x01]
    (initSt [0xAA] []) 0 9 (by decide) (by decide) ?_ fuel
  intro g
  have hchunk : ((List.range 9).map (fun i =>
      ([0xFF, 0xFF, 0xFF, 0xFF, 0xFF, 0xFF, 0xFF, 0x00, 0x00, 0x01] : List Nat).getD
        (0 + i) 0xFF)) =
      [0xFF, 0xFF, 0xFF, 0xFF, 0xFF, 0xFF, 0xFF, 0x00, 0x00] := by decide
  rw [hchunk]
  exact busy_stream_spin g

/-- A valid busy-signal operation with a zero pre-fetch hint makes the
planner request a zero-length transfer: the run reaches WaitUntilNotBusy
and crashes on the assert_ne!(bytes_to_transfer, 0) assertion, so the
claim's "any pre-fetch hint H" is wrong. -/
theorem zero_transfer_assert_cex :
    card_command ⟨1, some (.busySignal 0), false, false⟩ 9
        [0xFF, 0xFF, 0xFF, 0xFF, 0xFF, 0xFF, 0xFF, 0x00] 20 (initSt [0xAA] []) 0 =
      .crash .assertZeroTransfer ⟨.waitUntilNotBusy 0, [0], [], []⟩ := by decide

/-- C6 (amended): from any state of the engine invariant (nonempty
response slot, supported operation fitting the destination, phase data
invariant), with a nonempty scratch buffer and - unlike the claim's "any
pre-fetch hint H" - a positive busy hint for busy-signal operations, the
planner always yields some length len with 1 <= len <= scratch length,
so the zero-length transfer assertion cannot fire. (With a zero busy
hint it does fire: see the WaitUntilNotBusy row, whose optimistic length
is exactly the hint.) -/
theorem planned_transfer_length_bounds (env : Env) (bufferLen : Nat) (st : St)
    (hInv : Inv env st) (hbuf : 1 ≤ bufferLen)
    (hbusy : ∀ h, env.operation = some (.busySignal h) → 1 ≤ h) :
    ∃ len, bytesToTransfer env bufferLen st.response.length st.dest.length st.phase =
      some len ∧ 1 ≤ len ∧ len ≤ bufferLen := by
  obtain ⟨hresp, hop, hphase⟩ := hInv
  have htail : ∃ t, tailCost env.operation st.dest.length = some t := by
    rcases hop with hnone | ⟨op, hopr, hval⟩ | ⟨h, hopb⟩
    · exact ⟨0, by simp [hnone, tailCost]⟩
    · exact ⟨readTailPerPart op st.dest.length * op.parts, by simp [hopr, tailCost]⟩
    · exact ⟨h, by simp [hopb, tailCost]⟩
  obtain ⟨t, ht⟩ := htail
  suffices key : ∃ n,
      optimisticLen env bufferLen st.response.length st.dest.length st.phase =
        some n ∧ 1 ≤ n by
    obtain ⟨n, hn, h1⟩ := key
    exact ⟨min n bufferLen, by simp [bytesToTransfer, hn], Nat.le_min.mpr ⟨h1, hbuf⟩,
      Nat.min_le_right _ _⟩
  obtain ⟨ph, resp, dst, parts⟩ := st
  simp only at hresp ht hphase ⊢
  cases ph with
  | sendCommand k =>
    refine ⟨min (6 - k) bufferLen + env.expected_bytes_until_response +
      resp.length + t, ?_, by omega⟩
    simp [optimisticLen, ht]
  | receiveResponseStart dr =>
    refine ⟨env.expected_bytes_until_response + resp.length + t, ?_, by omega⟩
    simp [optimisticLen, ht]
  | receiveResponse k =>
    simp only [PhaseInv] at hphase
    obtain ⟨hk, -⟩ := hphase
    refine ⟨resp.length - k + t, ?_, by omega⟩
    simp [optimisticLen, ht]
  | waitUntilNotBusy bb =>
    rw [PhaseInv.eq_def] at hphase
    rcases henv : env.operation with _ | o
    · rw [henv] at hphase; simp at hphase
    · cases o with
      | read o => rw [henv] at hphase; simp at hphase
      | write => rw [henv] at hphase; simp at hphase
      | busySignal h =>
        refine ⟨h, ?_, hbusy h henv⟩
        simp [optimisticLen, henv]
  | receiveStartBlockToken d =>
    rw [PhaseInv.eq_def] at hphase
    rcases henv : env.operation with _ | o
    · rw [henv] at hphase; simp at hphase
    · cases o with
      | read o =>
        rw [henv] at hphase
        simp only at hphase
        obtain ⟨hd, -, -⟩ := hphase
        refine ⟨readTailPerPart o dst.length * (o.parts - d), ?_, ?_⟩
        · simp [optimisticLen, henv]
        · refine Nat.mul_pos ?_ (by omega)
          simp only [readTailPerPart]
          omega
      | write => rw [henv] at hphase; simp at hphase
      | busySignal h => rw [henv] at hphase; simp at hphase
  | receiveData dg d k =>
    rw [PhaseInv.eq_def] at hphase
    rcases henv : env.operation with _ | o
    · rw [henv] at hphase; simp at hphase
    · cases o with
      | read o =>
        refine ⟨dst.length - k + 2 +
          readTailPerPart o dst.length * (o.parts - (d + 1)), ?_, by omega⟩
        simp [optimisticLen, henv]
      | write => rw [henv] at hphase; simp at hphase
      | busySignal h => rw [henv] at hphase; simp at hphase
  | receiveCrc e d b0 =>
    rw [PhaseInv.eq_def] at hphase
    rcases henv : env.operation with _ | o
    · rw [henv] at hphase; simp at hphase
    · cases o with
      | read o =>
        refine ⟨2 - (if b0.isSome then 1 else 0) +
          readTailPerPart o dst.length * (o.parts - (d + 1)), ?_, ?_⟩
        · simp [optimisticLen, henv]
        · cases b0 <;> simp <;> omega
      | write => rw [henv] at hphase; simp at hphase
      | busySignal h => rw [henv] at hphase; simp at hphase
  | writeData n =>
    rw [PhaseInv.eq_def] at hphase
    rcases henv : env.operation with _ | o
    · rw [henv] at hphase; simp at hphase
    · rw [henv] at hphase; cases o <;> simp at hphase

theorem planned_transfer_length_bounds_witness :
    ∃ len, bytesToTransfer ⟨1, some (.busySignal 1), false, false⟩ 9
        (initSt [0xAA] []).response.length (initSt [0xAA] []).dest.length
        (initSt [0xAA] []).phase = some len ∧ 1 ≤ len ∧ len ≤ 9 :=
  planned_transfer_length_bounds ⟨1, some (.busySignal 1), false, false⟩ 9
    (initSt [0xAA] [])
    (initSt_inv ⟨1, some (.busySignal 1), false, false⟩ [0xAA] [] (by decide)
      (Or.inr (Or.inr ⟨1, rfl⟩)))
    (by decide)
    (by intro h hh; simp at hh; omega)

/-! ## Chunk-splitting invariance (claim C10) -/

/-- No deadline oracle fires and the operation is one of the non-busy
implemented paths (none or read): the setting in which the spec's
splitting invariant holds of the source; busy-signal operations violate
it through the WaitUntilNotBusy loop. -/
def NB (env : Env) : Prop :=
  env.respExpired = false ∧ env.dataExpired = false ∧
    (env.operation = none ∨ ∃ op, env.operation = some (.read op))

/-- Observational equality of engine states: the caller-visible response
slot and destination and the ghost part recorder agree (only the
break-time phase may differ). -/
def StObs (a b : St) : Prop :=
  a.response = b.response ∧ a.dest = b.dest ∧ a.receivedParts = b.receivedParts

/-- The reference byte-at-a-time run: each card byte fed as its own
one-byte transfer, with inner fuel 8 (more than the at most four phase
hops a single byte can trigger on the non-busy paths). -/
def feedBytes (env : Env) : St → List Nat → RunResult
  | st, [] => .pending st
  | st, b :: rest =>
    match processBytes env 8 st [b] with
    | .next st' => feedBytes env st' rest
    | .success st' => .ok st'
    | .failure e st' => .err e st'
    | .crash k st' => .crash k st'
    | .spin => .spin

theorem feedBytes_append (env : Env) :
    ∀ (xs : List Nat) (st : St) (ys : List Nat),
      feedBytes env st (xs ++ ys) =
        match feedBytes env st xs with
        | .pending st' => feedBytes env st' ys
        | r => r
  | [], st, ys => by simp only [feedBytes, List.nil_append]
  | x :: xs, st, ys => by
    simp only [feedBytes, List.cons_append]
    rcases processBytes env 8 st [x] with st' | st' | ⟨e, st'⟩ | ⟨k, st'⟩ | _
    · exact feedBytes_append env xs st' ys
    · rfl
    · rfl
    · rfl
    · rfl

/-! ### Single-byte interpreter steps -/

theorem processBytes_nil (env : Env) (f : Nat) (st : St) :
    processBytes env f st [] = .next st := by
  cases f <;> rfl

theorem stepB_sendCommand (env : Env) (f k : Nat) (R D P : List Nat) (b : Nat)
    (hk : k < 6) :
    processBytes env (f + 1) ⟨.sendCommand k, R, D, P⟩ [b] =
      .next ⟨if k + 1 = 6 then .receiveResponseStart false else .sendCommand (k + 1),
        R, D, P⟩ := by
  simp only [processBytes]
  have hm : min (6 - k) ([b] : List Nat).length = 1 := by
    simp only [List.length_cons, List.length_nil]
    omega
  rw [hm]
  simp only [List.drop_one, List.tail_cons]
  rw [processBytes_nil]

theorem stepB_rrs_noresp (env : Env) (f : Nat) (dr : Bool) (R D P : List Nat) (b : Nat)
    (hb : b &&& 0x80 ≠ 0) (hre : env.respExpired = false) :
    processBytes env (f + 1) ⟨.receiveResponseStart dr, R, D, P⟩ [b] =
      .next ⟨.receiveResponseStart (dr || (b != 0xFF)), R, D, P⟩ := by
  simp only [processBytes]
  have hbff : ¬(b ≠ 0xFF ∧ b &&& 0x80 = 0) := by
    intro hh
    exact hb hh.2
  have hscan : scanR1 [b] dr = (none, dr || (b != 0xFF)) := by
    simp only [scanR1]
    rw [if_neg hbff]
  rw [hscan]
  simp only [hre, Bool.false_eq_true, if_neg, reduceIte]

theorem stepB_rrs_found (env : Env) (f : Nat) (dr : Bool) (R D P : List Nat) (b : Nat)
    (hb : b &&& 0x80 = 0) :
    processBytes env (f + 1) ⟨.receiveResponseStart dr, R, D, P⟩ [b] =
      processBytes env f ⟨.receiveResponse 0, R, D, P⟩ [b] := by
  simp only [processBytes]
  have hbff : b ≠ 0xFF ∧ b &&& 0x80 = 0 := by
    refine ⟨?_, hb⟩
    intro hh
    subst hh
    simp at hb
  have hscan : scanR1 [b] dr = (some 0, dr || (b != 0xFF)) := by
    simp only [scanR1]
    rw [if_pos hbff]
  rw [hscan]
  simp only [List.drop_zero]

theorem stepB_rResp_mid (env : Env) (f k : Nat) (R D P : List Nat) (b : Nat)
    (hk : k + 1 < R.length) :
    processBytes env (f + 1) ⟨.receiveResponse k, R, D, P⟩ [b] =
      .next ⟨.receiveResponse (k + 1), R.take k ++ [b] ++ R.drop (k + 1), D, P⟩ := by
  simp only [processBytes]
  have hm : min (R.length - k) ([b] : List Nat).length = 1 := by
    simp only [List.length_cons, List.length_nil]
    omega
  rw [hm]
  have htake : ([b] : List Nat).take 1 = [b] := rfl
  rw [htake]
  rw [@writeSlice_eq_some R [b] k (by simp only [List.length_cons, List.length_nil]; omega)]
  simp only [List.length_cons, List.length_nil, Nat.zero_add]
  rw [if_neg (by omega : ¬ k + 1 = R.length)]
  simp only [List.drop_one, List.tail_cons]
  rw [processBytes_nil]

theorem stepB_rResp_done_none (env : Env) (f k : Nat) (R D P : List Nat) (b : Nat)
    (hk : k + 1 = R.length) (hop : env.operation = none) :
    processBytes env (f + 1) ⟨.receiveResponse k, R, D, P⟩ [b] =
      .success ⟨.receiveResponse k, R.take k ++ [b] ++ R.drop (k + 1), D, P⟩ := by
  simp only [processBytes]
  have hm : min (R.length - k) ([b] : List Nat).length = 1 := by
    simp only [List.length_cons, List.length_nil]
    omega
  rw [hm]
  have htake : ([b] : List Nat).take 1 = [b] := rfl
  rw [htake]
  rw [@writeSlice_eq_some R [b] k (by simp only [List.length_cons, List.length_nil]; omega)]
  simp only [List.length_cons, List.length_nil, Nat.zero_add]
  rw [if_pos hk, hop]

theorem stepB_rResp_done_read (env : Env) (f k : Nat) (o : ReadOperation)
    (R D P : List Nat) (b : Nat)
    (hk : k + 1 = R.length) (hop : env.operation = some (.read o)) :
    processBytes env (f + 1) ⟨.receiveResponse k, R, D, P⟩ [b] =
      .next ⟨.receiveStartBlockToken 0, R.take k ++ [b] ++ R.drop (k + 1), D, P⟩ := by
  simp only [processBytes]
  have hm : min (R.length - k) ([b] : List Nat).length = 1 := by
    simp only [List.length_cons, List.length_nil]
    omega
  rw [hm]
  have htake : ([b] : List Nat).take 1 = [b] := rfl
  rw [htake]
  rw [@writeSlice_eq_some R [b] k (by simp only [List.length_cons, List.length_nil]; omega)]
  simp only [List.length_cons, List.length_nil, Nat.zero_add]
  rw [if_pos hk, hop]
  simp only [List.drop_one, List.tail_cons]
  rw [processBytes_nil]

theorem stepB_token_ff (env : Env) (f d : Nat) (o : ReadOperation) (R D P : List Nat)
    (hop : env.operation = some (.read o)) (hde : env.dataExpired = false) :
    processBytes env (f + 1) ⟨.receiveStartBlockToken d, R, D, P⟩ [0xFF] =
      .next ⟨.receiveStartBlockToken d, R, D, P⟩ := by
  simp only [processBytes]
  rw [show scanToken [0xFF] = .exhausted by decide]
  rw [hop]
  simp only [hde, Bool.false_eq_true, if_neg, reduceIte]

theorem stepB_token_token (env : Env) (f d : Nat) (o : ReadOperation) (R D P : List Nat)
    (hop : env.operation = some (.read o)) (hde : env.dataExpired = false) :
    processBytes env (f + 1) ⟨.receiveStartBlockToken d, R, D, P⟩ [0xFE] =
      .next ⟨.receiveData 0 d 0, R, D, P⟩ := by
  simp only [processBytes]
  rw [show scanToken [0xFE] = .found 0 by decide]
  rw [hop]
  simp only [hde, Bool.false_eq_true, if_neg, reduceIte]
  rw [show List.drop (0 + 1) ([0xFE] : List Nat) = [] from rfl]
  rw [processBytes_nil]

theorem stepB_token_bad (env : Env) (f d : Nat) (R D P : List Nat) (b : Nat)
    (hb1 : b ≠ 0xFF) (hb2 : b ≠ 0xFE) :
    processBytes env (f + 1) ⟨.receiveStartBlockToken d, R, D, P⟩ [b] =
      .failure .expectedStartBlockToken ⟨.receiveStartBlockToken d, R, D, P⟩ := by
  simp only [processBytes]
  have hscan : scanToken [b] = .badByte := by
    simp only [scanToken]
    rw [if_pos hb1, if_neg (by simpa [START_BLOCK_TOKEN] using hb2)]
  rw [hscan]

theorem stepB_crc_first (env : Env) (f e d : Nat) (R D P : List Nat) (b : Nat) :
    processBytes env (f + 1) ⟨.receiveCrc e d none, R, D, P⟩ [b] =
      .next ⟨.receiveCrc e d (some b), R, D, P⟩ := by
  simp only [processBytes]

theorem stepB_crc_ok_more (env : Env) (f e d c0 : Nat) (o : ReadOperation)
    (R D P : List Nat) (b : Nat)
    (hop : env.operation = some (.read o))
    (hok : c0 * 256 + b = e ∨ o.crc_enabled = false) (hd : d + 1 ≠ o.parts) :
    processBytes env (f + 1) ⟨.receiveCrc e d (some c0), R, D, P⟩ [b] =
      .next ⟨.receiveStartBlockToken (d + 1), R, D, P⟩ := by
  simp only [processBytes, hop]
  rw [if_pos hok, if_neg hd]

theorem stepB_crc_ok_done (env : Env) (f e d c0 : Nat) (o : ReadOperation)
    (R D P : List Nat) (b : Nat)
    (hop : env.operation = some (.read o))
    (hok : c0 * 256 + b = e ∨ o.crc_enabled = false) (hd : d + 1 = o.parts) :
    processBytes env (f + 1) ⟨.receiveCrc e d (some c0), R, D, P⟩ [b] =
      .success ⟨.receiveCrc e d (some c0), R, D, P⟩ := by
  simp only [processBytes, hop]
  rw [if_pos hok, if_pos hd]

theorem stepB_crc_bad (env : Env) (f e d c0 : Nat) (o : ReadOperation)
    (R D P : List Nat) (b : Nat)
    (hop : env.operation = some (.read o))
    (hbad : ¬(c0 * 256 + b = e ∨ o.crc_enabled = false)) :
    processBytes env (f + 1) ⟨.receiveCrc e d (some c0), R, D, P⟩ [b] =
      .failure .invalidCrc ⟨.receiveCrc e d (some c0), R, D, P⟩ := by
  simp only [processBytes, hop]
  rw [if_neg hbad]

theorem stepB_data_skip (env : Env) (f dg d k : Nat) (o : ReadOperation)
    (R D P : List Nat) (b : Nat)
    (hop : env.operation = some (.read o)) (hk : k < o.part_size)
    (hskip : o.skip_bytes < o.part_size)
    (hsk : d * o.part_size + k < o.skip_bytes) :
    processBytes env (f + 1) ⟨.receiveData dg d k, R, D, P⟩ [b] =
      .next ⟨.receiveData (crc16Update dg b) d (k + 1), R, D, P ++ [b]⟩ := by
  have hfin : k + 1 ≠ o.part_size := by omega
  simp only [processBytes, hop]
  have hm : min (o.part_size - k) ([b] : List Nat).length = 1 := by
    simp only [List.length_cons, List.length_nil]
    omega
  rw [hm]
  rw [if_pos (by omega : d * o.part_size + k < o.skip_bytes)]
  rw [if_neg (by omega : ¬ d * o.part_size + k + 1 > o.skip_bytes)]
  simp only
  rw [if_neg (by omega : ¬ (0 : Nat) + 0 > D.length)]
  rw [if_pos (by omega : (0 : Nat) + 0 ≤ 1)]
  have htk : (([b] : List Nat).take 1) = [b] := rfl
  rw [htk]
  have hws : writeSlice D 0 ((([b] : List Nat).drop 0).take 0) = some D := by
    simp only [List.drop_zero, List.take_zero]
    rw [writeSlice_nil]
    rw [if_pos (by omega)]
  rw [hws]
  dsimp only
  rw [if_neg hfin]
  simp only [List.foldl_cons, List.foldl_nil, List.drop_one, List.tail_cons]
  rw [processBytes_nil]

theorem stepB_data_write (env : Env) (f dg d k : Nat) (o : ReadOperation)
    (R D P : List Nat) (b : Nat)
    (hop : env.operation = some (.read o)) (hk : k < o.part_size)
    (hsk : o.skip_bytes ≤ d * o.part_size + k)
    (hbound : d * o.part_size + k - o.skip_bytes + 1 ≤ D.length) :
    processBytes env (f + 1) ⟨.receiveData dg d k, R, D, P⟩ [b] =
      .next ⟨(if k + 1 = o.part_size then .receiveCrc (crc16Update dg b) d none
              else .receiveData (crc16Update dg b) d (k + 1)), R,
        D.take (d * o.part_size + k - o.skip_bytes) ++ [b] ++
          D.drop (d * o.part_size + k - o.skip_bytes + 1), P ++ [b]⟩ := by
  simp only [processBytes, hop]
  have hm : min (o.part_size - k) ([b] : List Nat).length = 1 := by
    simp only [List.length_cons, List.length_nil]
    omega
  rw [hm]
  rw [if_neg (by omega : ¬ d * o.part_size + k < o.skip_bytes)]
  simp only
  rw [if_neg (by omega : ¬ d * o.part_size + k - o.skip_bytes + 1 > D.length)]
  rw [if_pos (by omega : (0 : Nat) + 1 ≤ 1)]
  have htk : (([b] : List Nat).take 1) = [b] := rfl
  rw [htk]
  have hws : writeSlice D (d * o.part_size + k - o.skip_bytes)
      ((([b] : List Nat).drop 0).take 1) =
      some (D.take (d * o.part_size + k - o.skip_bytes) ++ [b] ++
        D.drop (d * o.part_size + k - o.skip_bytes + 1)) := by
    simp only [List.drop_zero]
    rw [htk]
    rw [@writeSlice_eq_some D [b] (d * o.part_size + k - o.skip_bytes)
      (by simp only [List.length_cons, List.length_nil]; omega)]
    norm_num
  rw [hws]
  simp only [List.foldl_cons, List.foldl_nil, List.drop_one, List.tail_cons]
  by_cases hfin : k + 1 = o.part_size
  · rw [if_pos hfin, if_pos hfin]
    rw [processBytes_nil]
  · rw [if_neg hfin, if_neg hfin]
    rw [processBytes_nil]

/-- Peeling the first byte off a contiguous slice write: writing b :: X
at position s equals writing [b] at s and then X at s + 1. -/
theorem write_peel (D X : List Nat) (s b : Nat) (h : s + 1 + X.length ≤ D.length) :
    D.take s ++ (b :: X) ++ D.drop (s + (b :: X).length) =
      (D.take s ++ [b] ++ D.drop (s + 1)).take (s + 1) ++ X ++
        (D.take s ++ [b] ++ D.drop (s + 1)).drop (s + 1 + X.length) := by
  have hs : s ≤ D.length := by omega
  have hlt : (D.take s).length = s := List.length_take_of_le hs
  have h1 : (D.take s ++ [b] ++ D.drop (s + 1)).take (s + 1) = D.take s ++ [b] := by
    rw [List.append_assoc]
    have : s + 1 = (D.take s).length + 1 := by rw [hlt]
    rw [this, List.take_append]
    simp
  have h2 : (D.take s ++ [b] ++ D.drop (s + 1)).drop (s + 1 + X.length) =
      D.drop (s + 1 + X.length) := by
    rw [List.append_assoc]
    have hb : ([b] ++ D.drop (s + 1) : List Nat) = b :: D.drop (s + 1) := rfl
    rw [hb]
    have : s + 1 + X.length = (D.take s).length + (1 + X.length) := by rw [hlt]; omega
    rw [this, List.drop_append]
    have : (1 : Nat) + X.length = X.length + 1 := by omega
    rw [this, List.drop_succ_cons, List.drop_drop]
    congr 1
    omega
  rw [h1, h2]
  have hidx : s + (b :: X).length = s + 1 + X.length := by
    simp only [List.length_cons]
    omega
  rw [hidx]
  simp [List.append_assoc]

/-! ### Byte-at-a-time walks of the interpreter's multi-byte spans -/

theorem feed_sendCommand (env : Env) (R D P : List Nat) :
    ∀ (c : List Nat) (k : Nat), k < 6 →
      feedBytes env ⟨.sendCommand k, R, D, P⟩ c =
        feedBytes env
          ⟨if k + min (6 - k) c.length = 6 then .receiveResponseStart false
            else .sendCommand (k + min (6 - k) c.length), R, D, P⟩
          (c.drop (min (6 - k) c.length)) := by
  intro c
  induction c with
  | nil =>
    intro k hk
    simp only [List.length_nil, Nat.min_zero, Nat.add_zero, List.drop_nil]
    rw [if_neg (by omega)]
  | cons b rest ih =>
    intro k hk
    have h8 : processBytes env 8 ⟨.sendCommand k, R, D, P⟩ [b] =
        .next ⟨if k + 1 = 6 then .receiveResponseStart false else .sendCommand (k + 1),
          R, D, P⟩ :=
      stepB_sendCommand env 7 k R D P b hk
    rw [show feedBytes env ⟨.sendCommand k, R, D, P⟩ (b :: rest) =
        (match processBytes env 8 ⟨.sendCommand k, R, D, P⟩ [b] with
         | .next st' => feedBytes env st' rest
         | .success st' => .ok st'
         | .failure e st' => .err e st'
         | .crash kk st' => .crash kk st'
         | .spin => .spin) from rfl]
    rw [h8]
    simp only
    have hmm : min (6 - k) (b :: rest).length = min (5 - k) rest.length + 1 := by
      have h6 : 6 - k = (5 - k) + 1 := by omega
      rw [h6, List.length_cons, Nat.succ_min_succ]
    by_cases h1 : k + 1 = 6
    · rw [if_pos h1]
      have h5 : 5 - k = 0 := by omega
      rw [hmm, h5]
      simp only [Nat.zero_min, Nat.zero_add]
      rw [if_pos (by omega), List.drop_succ_cons, List.drop_zero]
    · rw [if_neg h1]
      rw [ih (k + 1) (by omega)]
      rw [hmm]
      have harith : k + (min (5 - k) rest.length + 1) = k + 1 + min (5 - k) rest.length := by
        omega
      have h5 : 5 - k = 6 - (k + 1) := by omega
      rw [harith, List.drop_succ_cons, h5]

theorem feed_rrs_exhaust (env : Env) (R D P : List Nat)
    (hre : env.respExpired = false) :
    ∀ (c : List Nat) (dr : Bool), (∀ x ∈ c, x &&& 0x80 ≠ 0) →
      feedBytes env ⟨.receiveResponseStart dr, R, D, P⟩ c =
        .pending ⟨.receiveResponseStart (dr || c.any (fun x => x != 0xFF)), R, D, P⟩ := by
  intro c
  induction c with
  | nil =>
    intro dr _
    simp [feedBytes]
  | cons b rest ih =>
    intro dr hall
    have hb : b &&& 0x80 ≠ 0 := hall b (List.mem_cons_self b rest)
    have h8 : processBytes env 8 ⟨.receiveResponseStart dr, R, D, P⟩ [b] =
        .next ⟨.receiveResponseStart (dr || (b != 0xFF)), R, D, P⟩ :=
      stepB_rrs_noresp env 7 dr R D P b hb hre
    rw [show feedBytes env ⟨.receiveResponseStart dr, R, D, P⟩ (b :: rest) =
        (match processBytes env 8 ⟨.receiveResponseStart dr, R, D, P⟩ [b] with
         | .next st' => feedBytes env st' rest
         | .success st' => .ok st'
         | .failure e st' => .err e st'
         | .crash kk st' => .crash kk st'
         | .spin => .spin) from rfl]
    rw [h8]
    simp only
    rw [ih (dr || (b != 0xFF)) (fun x hx => hall x (List.mem_cons_of_mem b hx))]
    simp [Bool.or_assoc]

theorem stepB_rResp_fuelfree (env : Env) (f g k : Nat) (R D P : List Nat) (b : Nat)
    (hk : k < R.length)
    (hop : env.operation = none ∨ ∃ o, env.operation = some (.read o)) :
    processBytes env (f + 1) ⟨.receiveResponse k, R, D, P⟩ [b] =
      processBytes env (g + 1) ⟨.receiveResponse k, R, D, P⟩ [b] := by
  by_cases hfin : k + 1 = R.length
  · rcases hop with hnone | ⟨o, hread⟩
    · rw [stepB_rResp_done_none env f k R D P b hfin hnone,
        stepB_rResp_done_none env g k R D P b hfin hnone]
    · rw [stepB_rResp_done_read env f k o R D P b hfin hread,
        stepB_rResp_done_read env g k o R D P b hfin hread]
  · rw [stepB_rResp_mid env f k R D P b (by omega),
      stepB_rResp_mid env g k R D P b (by omega)]

theorem feed_rrs_found (env : Env) (R D P : List Nat)
    (hre : env.respExpired = false) (hR : 1 ≤ R.length)
    (hop : env.operation = none ∨ ∃ o, env.operation = some (.read o)) :
    ∀ (c : List Nat) (dr : Bool) (i : Nat) (dr2 : Bool),
      scanR1 c dr = (some i, dr2) →
      feedBytes env ⟨.receiveResponseStart dr, R, D, P⟩ c =
        feedBytes env ⟨.receiveResponse 0, R, D, P⟩ (c.drop i) := by
  intro c
  induction c with
  | nil =>
    intro dr i dr2 h
    simp [scanR1] at h
  | cons b rest ih =>
    intro dr i dr2 hscan
    by_cases hbf : b ≠ 0xFF ∧ b &&& 0x80 = 0
    · have hsc : scanR1 (b :: rest) dr = (some 0, dr || (b != 0xFF)) := by
        simp only [scanR1]
        rw [if_pos hbf]
      rw [hsc] at hscan
      have hi : (some 0 : Option Nat) = some i := congrArg Prod.fst hscan
      have hi0 : 0 = i := by simpa using hi
      subst hi0
      rw [List.drop_zero]
      have h8 : processBytes env 8 ⟨.receiveResponseStart dr, R, D, P⟩ [b] =
          processBytes env 8 ⟨.receiveResponse 0, R, D, P⟩ [b] := by
        rw [stepB_rrs_found env 7 dr R D P b hbf.2]
        exact stepB_rResp_fuelfree env 6 7 0 R D P b (by omega) hop
      rw [show feedBytes env ⟨.receiveResponseStart dr, R, D, P⟩ (b :: rest) =
          (match processBytes env 8 ⟨.receiveResponseStart dr, R, D, P⟩ [b] with
           | .next st' => feedBytes env st' rest
           | .success st' => .ok st'
           | .failure e st' => .err e st'
           | .crash kk st' => .crash kk st'
           | .spin => .spin) from rfl]
      rw [h8]
      rw [show feedBytes env ⟨.receiveResponse 0, R, D, P⟩ (b :: rest) =
          (match processBytes env 8 ⟨.receiveResponse 0, R, D, P⟩ [b] with
           | .next st' => feedBytes env st' rest
           | .success st' => .ok st'
           | .failure e st' => .err e st'
           | .crash kk st' => .crash kk st'
           | .spin => .spin) from rfl]
    · have hbb : b &&& 0x80 ≠ 0 := by
        by_cases hff : b = 0xFF
        · subst hff; decide
        · intro h0; exact hbf ⟨hff, h0⟩
      have hstep : processBytes env 8 ⟨.receiveResponseStart dr, R, D, P⟩ [b] =
          .next ⟨.receiveResponseStart (dr || (b != 0xFF)), R, D, P⟩ :=
        stepB_rrs_noresp env 7 dr R D P b hbb hre
      have hsc0 : scanR1 (b :: rest) dr =
          match scanR1 rest (dr || (b != 0xFF)) with
          | (some j, dr'') => (some (j + 1), dr'')
          | (none, dr'') => (none, dr'') := by
        simp only [scanR1]
        rw [if_neg hbf]
      rw [hsc0] at hscan
      rcases hsc2 : scanR1 rest (dr || (b != 0xFF)) with ⟨oi, drr⟩
      cases oi with
      | none =>
        rw [hsc2] at hscan
        have := congrArg Prod.fst hscan
        simp at this
      | some j =>
        rw [hsc2] at hscan
        have hfst := congrArg Prod.fst hscan
        simp only at hfst
        have hij : j + 1 = i := by simpa using hfst
        subst hij
        rw [show feedBytes env ⟨.receiveResponseStart dr, R, D, P⟩ (b :: rest) =
            (match processBytes env 8 ⟨.receiveResponseStart dr, R, D, P⟩ [b] with
             | .next st' => feedBytes env st' rest
             | .success st' => .ok st'
             | .failure e st' => .err e st'
             | .crash kk st' => .crash kk st'
             | .spin => .spin) from rfl]
        rw [hstep]
        simp only
        rw [ih (dr || (b != 0xFF)) j drr hsc2]
        rw [List.drop_succ_cons]

theorem feed_rResp_read (env : Env) (o : ReadOperation) (D P : List Nat)
    (hread : env.operation = some (.read o)) :
    ∀ (c : List Nat) (k : Nat) (R : List Nat), k < R.length →
      feedBytes env ⟨.receiveResponse k, R, D, P⟩ c =
        if k + min (R.length - k) c.length = R.length then
          feedBytes env ⟨.receiveStartBlockToken 0,
            R.take k ++ c.take (min (R.length - k) c.length) ++
              R.drop (k + min (R.length - k) c.length), D, P⟩
            (c.drop (min (R.length - k) c.length))
        else
          feedBytes env ⟨.receiveResponse (k + min (R.length - k) c.length),
            R.take k ++ c.take (min (R.length - k) c.length) ++
              R.drop (k + min (R.length - k) c.length), D, P⟩
            (c.drop (min (R.length - k) c.length)) := by
  intro c
  induction c with
  | nil =>
    intro k R hk
    simp only [List.length_nil, Nat.min_zero, Nat.add_zero, List.take_nil,
      List.drop_nil]
    rw [if_neg (by omega)]
    simp only [List.append_nil, List.take_append_drop]
  | cons b rest ih =>
    intro k R hk
    have h6 : R.length - k = (R.length - k - 1) + 1 := by omega
    have hmm : min (R.length - k) (b :: rest).length =
        min (R.length - k - 1) rest.length + 1 := by
      conv_lhs => rw [h6, List.length_cons]
      exact Nat.succ_min_succ _ _
    rw [hmm]
    set cl := min (R.length - k - 1) rest.length with hcl
    have hclL : cl ≤ rest.length := Nat.min_le_right _ _
    have hclR : cl ≤ R.length - k - 1 := Nat.min_le_left _ _
    have htkc : (b :: rest).take (cl + 1) = b :: rest.take cl := List.take_succ_cons
    have hdrc : (b :: rest).drop (cl + 1) = rest.drop cl := List.drop_succ_cons
    rw [htkc, hdrc]
    by_cases hfin : k + 1 = R.length
    · have hcl0 : cl = 0 := by
        rw [hcl]
        have h0 : R.length - k - 1 = 0 := by omega
        rw [h0]
        exact Nat.zero_min _
      rw [hcl0]
      rw [if_pos (by omega)]
      have h8 : processBytes env 8 ⟨.receiveResponse k, R, D, P⟩ [b] =
          .next ⟨.receiveStartBlockToken 0, R.take k ++ [b] ++ R.drop (k + 1), D, P⟩ :=
        stepB_rResp_done_read env 7 k o R D P b hfin hread
      rw [show feedBytes env ⟨.receiveResponse k, R, D, P⟩ (b :: rest) =
          (match processBytes env 8 ⟨.receiveResponse k, R, D, P⟩ [b] with
           | .next st' => feedBytes env st' rest
           | .success st' => .ok st'
           | .failure e st' => .err e st'
           | .crash kk st' => .crash kk st'
           | .spin => .spin) from rfl]
      rw [h8]
      simp only [List.take_zero, List.drop_zero]
    · have hlt : k + 1 < R.length := by omega
      have h8 : processBytes env 8 ⟨.receiveResponse k, R, D, P⟩ [b] =
          .next ⟨.receiveResponse (k + 1), R.take k ++ [b] ++ R.drop (k + 1), D, P⟩ :=
        stepB_rResp_mid env 7 k R D P b hlt
      rw [show feedBytes env ⟨.receiveResponse k, R, D, P⟩ (b :: rest) =
          (match processBytes env 8 ⟨.receiveResponse k, R, D, P⟩ [b] with
           | .next st' => feedBytes env st' rest
           | .success st' => .ok st'
           | .failure e st' => .err e st'
           | .crash kk st' => .crash kk st'
           | .spin => .spin) from rfl]
      rw [h8]
      simp only
      set R₁ := R.take k ++ [b] ++ R.drop (k + 1) with hR₁
      have hR₁len : R₁.length = R.length := by
        rw [hR₁]
        simp only [List.length_append, List.length_take, List.length_cons,
          List.length_nil, List.length_drop]
        have hmin : k ⊓ R.length = k := Nat.min_eq_left (by omega)
        omega
      rw [ih (k + 1) R₁ (by omega)]
      have hcl₂ : min (R₁.length - (k + 1)) rest.length = cl := by
        rw [hR₁len, hcl]
        have hss : R.length - (k + 1) = R.length - k - 1 := by omega
        rw [hss]
      rw [hcl₂, hR₁len]
      have hXlen : (rest.take cl).length = cl := List.length_take_of_le hclL
      have hpeel := write_peel R (rest.take cl) k b (by rw [hXlen]; omega)
      simp only [List.length_cons, hXlen] at hpeel
      by_cases h2 : k + 1 + cl = R.length
      · rw [if_pos h2, if_pos (by omega)]
        rw [← hR₁] at hpeel
        rw [← hpeel]
      · rw [if_neg h2, if_neg (by omega)]
        rw [← hR₁] at hpeel
        rw [← hpeel]
        have hidx : k + 1 + cl = k + (cl + 1) := by omega
        rw [hidx]

theorem feed_rResp_none (env : Env) (D P : List Nat)
    (hnone : env.operation = none) :
    ∀ (c : List Nat) (k : Nat) (R : List Nat), k < R.length →
      feedBytes env ⟨.receiveResponse k, R, D, P⟩ c =
        if k + min (R.length - k) c.length = R.length then
          .ok ⟨.receiveResponse (R.length - 1),
            R.take k ++ c.take (min (R.length - k) c.length) ++
              R.drop (k + min (R.length - k) c.length), D, P⟩
        else
          feedBytes env ⟨.receiveResponse (k + min (R.length - k) c.length),
            R.take k ++ c.take (min (R.length - k) c.length) ++
              R.drop (k + min (R.length - k) c.length), D, P⟩
            (c.drop (min (R.length - k) c.length)) := by
  intro c
  induction c with
  | nil =>
    intro k R hk
    simp only [List.length_nil, Nat.min_zero, Nat.add_zero, List.take_nil,
      List.drop_nil]
    rw [if_neg (by omega)]
    simp only [List.append_nil, List.take_append_drop]
  | cons b rest ih =>
    intro k R hk
    have h6 : R.length - k = (R.length - k - 1) + 1 := by omega
    have hmm : min (R.length - k) (b :: rest).length =
        min (R.length - k - 1) rest.length + 1 := by
      conv_lhs => rw [h6, List.length_cons]
      exact Nat.succ_min_succ _ _
    rw [hmm]
    set cl := min (R.length - k - 1) rest.length with hcl
    have hclL : cl ≤ rest.length := Nat.min_le_right _ _
    have hclR : cl ≤ R.length - k - 1 := Nat.min_le_left _ _
    have htkc : (b :: rest).take (cl + 1) = b :: rest.take cl := List.take_succ_cons
    have hdrc : (b :: rest).drop (cl + 1) = rest.drop cl := List.drop_succ_cons
    rw [htkc, hdrc]
    by_cases hfin : k + 1 = R.length
    · have hcl0 : cl = 0 := by
        rw [hcl]
        have h0 : R.length - k - 1 = 0 := by omega
        rw [h0]
        exact Nat.zero_min _
      rw [hcl0]
      rw [if_pos (by omega)]
      have h8 : processBytes env 8 ⟨.receiveResponse k, R, D, P⟩ [b] =
          .success ⟨.receiveResponse k, R.take k ++ [b] ++ R.drop (k + 1), D, P⟩ :=
        stepB_rResp_done_none env 7 k R D P b hfin hnone
      rw [show feedBytes env ⟨.receiveResponse k, R, D, P⟩ (b :: rest) =
          (match processBytes env 8 ⟨.receiveResponse k, R, D, P⟩ [b] with
           | .next st' => feedBytes env st' rest
           | .success st' => .ok st'
           | .failure e st' => .err e st'
           | .crash kk st' => .crash kk st'
           | .spin => .spin) from rfl]
      rw [h8]
      simp only [List.take_zero, List.drop_zero]
      have hkk : k = R.length - 1 := by omega
      rw [hkk]
    · have hlt : k + 1 < R.length := by omega
      have h8 : processBytes env 8 ⟨.receiveResponse k, R, D, P⟩ [b] =
          .next ⟨.receiveResponse (k + 1), R.take k ++ [b] ++ R.drop (k + 1), D, P⟩ :=
        stepB_rResp_mid env 7 k R D P b hlt
      rw [show feedBytes env ⟨.receiveResponse k, R, D, P⟩ (b :: rest) =
          (match processBytes env 8 ⟨.receiveResponse k, R, D, P⟩ [b] with
           | .next st' => feedBytes env st' rest
           | .success st' => .ok st'
           | .failure e st' => .err e st'
           | .crash kk st' => .crash kk st'
           | .spin => .spin) from rfl]
      rw [h8]
      simp only
      set R₁ := R.take k ++ [b] ++ R.drop (k + 1) with hR₁
      have hR₁len : R₁.length = R.length := by
        rw [hR₁]
        simp only [List.length_append, List.length_take, List.length_cons,
          List.length_nil, List.length_drop]
        have hmin : k ⊓ R.length = k := Nat.min_eq_left (by omega)
        omega
      rw [ih (k + 1) R₁ (by omega)]
      have hcl₂ : min (R₁.length - (k + 1)) rest.length = cl := by
        rw [hR₁len, hcl]
        have hss : R.length - (k + 1) = R.length - k - 1 := by omega
        rw [hss]
      rw [hcl₂, hR₁len]
      have hXlen : (rest.take cl).length = cl := List.length_take_of_le hclL
      have hpeel := write_peel R (rest.take cl) k b (by rw [hXlen]; omega)
      simp only [List.length_cons, hXlen] at hpeel
      by_cases h2 : k + 1 + cl = R.length
      · rw [if_pos h2, if_pos (by omega)]
        rw [← hR₁] at hpeel
        rw [← hpeel]
      · rw [if_neg h2, if_neg (by omega)]
        rw [← hR₁] at hpeel
        rw [← hpeel]
        have hidx : k + 1 + cl = k + (cl + 1) := by omega
        rw [hidx]

theorem scanToken_ff (rest : List Nat) :
    scanToken (0xFF :: rest) =
      match scanToken rest with
      | .found i => .found (i + 1)
      | x => x := by
  simp only [scanToken]
  rw [if_neg (by simp)]

theorem feed_token_exhaust (env : Env) (o : ReadOperation) (R D P : List Nat)
    (hop : env.operation = some (.read o)) (hde : env.dataExpired = false) :
    ∀ (c : List Nat) (d : Nat), scanToken c = .exhausted →
      feedBytes env ⟨.receiveStartBlockToken d, R, D, P⟩ c =
        .pending ⟨.receiveStartBlockToken d, R, D, P⟩ := by
  intro c
  induction c with
  | nil =>
    intro d _
    rfl
  | cons b rest ih =>
    intro d hsc
    by_cases hb : b ≠ 0xFF
    · exfalso
      simp only [scanToken] at hsc
      rw [if_pos hb] at hsc
      by_cases hs : b = START_BLOCK_TOKEN
      · rw [if_pos hs] at hsc
        cases hsc
      · rw [if_neg hs] at hsc
        cases hsc
    · have hbe : b = 0xFF := not_not.mp hb
      subst hbe
      rw [scanToken_ff] at hsc
      rcases hrest : scanToken rest with i | _ | _
      · rw [hrest] at hsc
        cases hsc
      · rw [hrest] at hsc
        cases hsc
      · have h8 : processBytes env 8 ⟨.receiveStartBlockToken d, R, D, P⟩ [0xFF] =
            .next ⟨.receiveStartBlockToken d, R, D, P⟩ :=
          stepB_token_ff env 7 d o R D P hop hde
        rw [show feedBytes env ⟨.receiveStartBlockToken d, R, D, P⟩ (0xFF :: rest) =
            (match processBytes env 8 ⟨.receiveStartBlockToken d, R, D, P⟩ [0xFF] with
             | .next st' => feedBytes env st' rest
             | .success st' => .ok st'
             | .failure e st' => .err e st'
             | .crash kk st' => .crash kk st'
             | .spin => .spin) from rfl]
        rw [h8]
        exact ih d hrest

theorem feed_token_found (env : Env) (o : ReadOperation) (R D P : List Nat)
    (hop : env.operation = some (.read o)) (hde : env.dataExpired = false) :
    ∀ (c : List Nat) (d i : Nat), scanToken c = .found i →
      feedBytes env ⟨.receiveStartBlockToken d, R, D, P⟩ c =
        feedBytes env ⟨.receiveData 0 d 0, R, D, P⟩ (c.drop (i + 1)) := by
  intro c
  induction c with
  | nil =>
    intro d i h
    cases h
  | cons b rest ih =>
    intro d i hsc
    by_cases hb : b ≠ 0xFF
    · have hbe : b = START_BLOCK_TOKEN := by
        by_cases hs : b = START_BLOCK_TOKEN
        · exact hs
        · exfalso
          simp only [scanToken] at hsc
          rw [if_pos hb, if_neg hs] at hsc
          cases hsc
      have hi : i = 0 := by
        simp only [scanToken] at hsc
        rw [if_pos hb, if_pos hbe] at hsc
        cases hsc
        rfl
      subst hi
      have hbfe : b = 0xFE := hbe
      subst hbfe
      have h8 : processBytes env 8 ⟨.receiveStartBlockToken d, R, D, P⟩ [0xFE] =
          .next ⟨.receiveData 0 d 0, R, D, P⟩ :=
        stepB_token_token env 7 d o R D P hop hde
      rw [show feedBytes env ⟨.receiveStartBlockToken d, R, D, P⟩ (0xFE :: rest) =
          (match processBytes env 8 ⟨.receiveStartBlockToken d, R, D, P⟩ [0xFE] with
           | .next st' => feedBytes env st' rest
           | .success st' => .ok st'
           | .failure e st' => .err e st'
           | .crash kk st' => .crash kk st'
           | .spin => .spin) from rfl]
      rw [h8]
      rw [List.drop_succ_cons, List.drop_zero]
    · have hbe : b = 0xFF := not_not.mp hb
      subst hbe
      rw [scanToken_ff] at hsc
      rcases hrest : scanToken rest with j | _ | _
      · rw [hrest] at hsc
        have hij : j + 1 = i := by
          cases hsc
          rfl
        subst hij
        have h8 : processBytes env 8 ⟨.receiveStartBlockToken d, R, D, P⟩ [0xFF] =
            .next ⟨.receiveStartBlockToken d, R, D, P⟩ :=
          stepB_token_ff env 7 d o R D P hop hde
        rw [show feedBytes env ⟨.receiveStartBlockToken d, R, D, P⟩ (0xFF :: rest) =
            (match processBytes env 8 ⟨.receiveStartBlockToken d, R, D, P⟩ [0xFF] with
             | .next st' => feedBytes env st' rest
             | .success st' => .ok st'
             | .failure e st' => .err e st'
             | .crash kk st' => .crash kk st'
             | .spin => .spin) from rfl]
        rw [h8]
        simp only
        rw [List.drop_succ_cons]
        exact ih d j hrest
      · rw [hrest] at hsc
        cases hsc
      · rw [hrest] at hsc
        cases hsc

theorem feed_token_bad (env : Env) (o : ReadOperation) (R D P : List Nat)
    (hop : env.operation = some (.read o)) (hde : env.dataExpired = false) :
    ∀ (c : List Nat) (d : Nat), scanToken c = .badByte →
      feedBytes env ⟨.receiveStartBlockToken d, R, D, P⟩ c =
        .err .expectedStartBlockToken ⟨.receiveStartBlockToken d, R, D, P⟩ := by
  intro c
  induction c with
  | nil =>
    intro d h
    cases h
  | cons b rest ih =>
    intro d hsc
    by_cases hb : b ≠ 0xFF
    · have hbs : b ≠ START_BLOCK_TOKEN := by
        intro hs
        simp only [scanToken] at hsc
        rw [if_pos hb, if_pos hs] at hsc
        cases hsc
      have h8 : processBytes env 8 ⟨.receiveStartBlockToken d, R, D, P⟩ [b] =
          .failure .expectedStartBlockToken ⟨.receiveStartBlockToken d, R, D, P⟩ :=
        stepB_token_bad env 7 d R D P b hb (by simpa [START_BLOCK_TOKEN] using hbs)
      rw [show feedBytes env ⟨.receiveStartBlockToken d, R, D, P⟩ (b :: rest) =
          (match processBytes env 8 ⟨.receiveStartBlockToken d, R, D, P⟩ [b] with
           | .next st' => feedBytes env st' rest
           | .success st' => .ok st'
           | .failure e st' => .err e st'
           | .crash kk st' => .crash kk st'
           | .spin => .spin) from rfl]
      rw [h8]
    · have hbe : b = 0xFF := not_not.mp hb
      subst hbe
      rw [scanToken_ff] at hsc
      rcases hrest : scanToken rest with j | _ | _
      · rw [hrest] at hsc
        cases hsc
      · have h8 : processBytes env 8 ⟨.receiveStartBlockToken d, R, D, P⟩ [0xFF] =
            .next ⟨.receiveStartBlockToken d, R, D, P⟩ :=
          stepB_token_ff env 7 d o R D P hop hde
        rw [show feedBytes env ⟨.receiveStartBlockToken d, R, D, P⟩ (0xFF :: rest) =
            (match processBytes env 8 ⟨.receiveStartBlockToken d, R, D, P⟩ [0xFF] with
             | .next st' => feedBytes env st' rest
             | .success st' => .ok st'
             | .failure e st' => .err e st'
             | .crash kk st' => .crash kk st'
             | .spin => .spin) from rfl]
        rw [h8]
        exact ih d hrest
      · rw [hrest] at hsc
        cases hsc

theorem feed_data_skip (env : Env) (o : ReadOperation) (R : List Nat)
    (hop : env.operation = some (.read o)) (hskip : o.skip_bytes < o.part_size) :
    ∀ (c : List Nat) (dg d k : Nat) (D P : List Nat),
      k < o.part_size → d * o.part_size + k ≤ o.skip_bytes →
      feedBytes env ⟨.receiveData dg d k, R, D, P⟩ c =
        feedBytes env
          ⟨.receiveData
              ((c.take (min (o.skip_bytes - (d * o.part_size + k)) c.length)).foldl
                crc16Update dg) d
              (k + min (o.skip_bytes - (d * o.part_size + k)) c.length),
            R, D,
            P ++ c.take (min (o.skip_bytes - (d * o.part_size + k)) c.length)⟩
          (c.drop (min (o.skip_bytes - (d * o.part_size + k)) c.length)) := by
  intro c
  induction c with
  | nil =>
    intro dg d k D P hk hle
    simp only [List.length_nil, Nat.min_zero, Nat.add_zero, List.take_nil,
      List.drop_nil, List.foldl_nil, List.append_nil]
  | cons b rest ih =>
    intro dg d k D P hk hle
    by_cases heq : d * o.part_size + k = o.skip_bytes
    · have hm0 : min (o.skip_bytes - (d * o.part_size + k)) (b :: rest).length = 0 := by
        rw [heq]
        simp
      rw [hm0]
      simp only [Nat.add_zero, List.take_zero, List.drop_zero, List.foldl_nil,
        List.append_nil]
    · have hlt : d * o.part_size + k < o.skip_bytes := by omega
      have h6 : o.skip_bytes - (d * o.part_size + k) =
          (o.skip_bytes - (d * o.part_size + k) - 1) + 1 := by omega
      have hmm : min (o.skip_bytes - (d * o.part_size + k)) (b :: rest).length =
          min (o.skip_bytes - (d * o.part_size + k) - 1) rest.length + 1 := by
        conv_lhs => rw [h6, List.length_cons]
        exact Nat.succ_min_succ _ _
      rw [hmm]
      have hknext : o.skip_bytes - (d * o.part_size + (k + 1)) =
          o.skip_bytes - (d * o.part_size + k) - 1 := by omega
      set mr := min (o.skip_bytes - (d * o.part_size + k) - 1) rest.length with hmr
      have htkc : (b :: rest).take (mr + 1) = b :: rest.take mr := List.take_succ_cons
      have hdrc : (b :: rest).drop (mr + 1) = rest.drop mr := List.drop_succ_cons
      rw [htkc, hdrc]
      have hkps : k < o.part_size := hk
      have h8 : processBytes env 8 ⟨.receiveData dg d k, R, D, P⟩ [b] =
          .next ⟨.receiveData (crc16Update dg b) d (k + 1), R, D, P ++ [b]⟩ :=
        stepB_data_skip env 7 dg d k o R D P b hop hkps hskip hlt
      rw [show feedBytes env ⟨.receiveData dg d k, R, D, P⟩ (b :: rest) =
          (match processBytes env 8 ⟨.receiveData dg d k, R, D, P⟩ [b] with
           | .next st' => feedBytes env st' rest
           | .success st' => .ok st'
           | .failure e st' => .err e st'
           | .crash kk st' => .crash kk st'
           | .spin => .spin) from rfl]
      rw [h8]
      simp only
      have hk1 : k + 1 < o.part_size := by omega
      rw [ih (crc16Update dg b) d (k + 1) D (P ++ [b]) hk1 (by omega)]
      rw [hknext]
      rw [← hmr]
      simp only [List.foldl_cons, List.append_assoc, List.singleton_append]
      have hidx : k + 1 + mr = k + (mr + 1) := by omega
      rw [hidx]

theorem feed_data_write (env : Env) (o : ReadOperation) (R : List Nat)
    (hop : env.operation = some (.read o)) :
    ∀ (c : List Nat) (dg d k : Nat) (D P : List Nat),
      k < o.part_size → o.skip_bytes ≤ d * o.part_size + k →
      d * o.part_size + k + min (o.part_size - k) c.length ≤
        o.skip_bytes + D.length →
      feedBytes env ⟨.receiveData dg d k, R, D, P⟩ c =
        feedBytes env
          ⟨(if k + min (o.part_size - k) c.length = o.part_size then
              .receiveCrc ((c.take (min (o.part_size - k) c.length)).foldl
                crc16Update dg) d none
            else
              .receiveData ((c.take (min (o.part_size - k) c.length)).foldl
                crc16Update dg) d (k + min (o.part_size - k) c.length)),
            R,
            D.take (d * o.part_size + k - o.skip_bytes) ++
              c.take (min (o.part_size - k) c.length) ++
              D.drop (d * o.part_size + k - o.skip_bytes +
                min (o.part_size - k) c.length),
            P ++ c.take (min (o.part_size - k) c.length)⟩
          (c.drop (min (o.part_size - k) c.length)) := by
  intro c
  induction c with
  | nil =>
    intro dg d k D P hk hsk hspan
    simp only [List.length_nil, Nat.min_zero, Nat.add_zero, List.take_nil,
      List.drop_nil, List.foldl_nil, List.append_nil]
    rw [if_neg (by omega)]
    rw [List.take_append_drop]
  | cons b rest ih =>
    intro dg d k D P hk hsk hspan
    have h6 : o.part_size - k = (o.part_size - k - 1) + 1 := by omega
    have hmm : min (o.part_size - k) (b :: rest).length =
        min (o.part_size - k - 1) rest.length + 1 := by
      conv_lhs => rw [h6, List.length_cons]
      exact Nat.succ_min_succ _ _
    rw [hmm]
    rw [hmm] at hspan
    set mr := min (o.part_size - k - 1) rest.length with hmr
    have hmrL : mr ≤ rest.length := Nat.min_le_right _ _
    have hmrR : mr ≤ o.part_size - k - 1 := Nat.min_le_left _ _
    have htkc : (b :: rest).take (mr + 1) = b :: rest.take mr := List.take_succ_cons
    have hdrc : (b :: rest).drop (mr + 1) = rest.drop mr := List.drop_succ_cons
    rw [htkc, hdrc]
    have hbound1 : d * o.part_size + k - o.skip_bytes + 1 ≤ D.length := by omega
    have h8 : processBytes env 8 ⟨.receiveData dg d k, R, D, P⟩ [b] =
        .next ⟨(if k + 1 = o.part_size then .receiveCrc (crc16Update dg b) d none
                else .receiveData (crc16Update dg b) d (k + 1)), R,
          D.take (d * o.part_size + k - o.skip_bytes) ++ [b] ++
            D.drop (d * o.part_size + k - o.skip_bytes + 1), P ++ [b]⟩ :=
      stepB_data_write env 7 dg d k o R D P b hop hk hsk hbound1
    rw [show feedBytes env ⟨.receiveData dg d k, R, D, P⟩ (b :: rest) =
        (match processBytes env 8 ⟨.receiveData dg d k, R, D, P⟩ [b] with
         | .next st' => feedBytes env st' rest
         | .success st' => .ok st'
         | .failure e st' => .err e st'
         | .crash kk st' => .crash kk st'
         | .spin => .spin) from rfl]
    rw [h8]
    simp only
    by_cases hfin : k + 1 = o.part_size
    · have hmr0 : mr = 0 := by
        rw [hmr]
        have h0 : o.part_size - k - 1 = 0 := by omega
        rw [h0]
        exact Nat.zero_min _
      rw [hmr0]
      rw [if_pos hfin, if_pos (by omega)]
      simp only [List.take_zero, List.drop_zero, List.foldl_cons, List.foldl_nil,
        List.append_nil]
    · have hk1 : k + 1 < o.part_size := by omega
      rw [if_neg hfin]
      set D₁ := D.take (d * o.part_size + k - o.skip_bytes) ++ [b] ++
        D.drop (d * o.part_size + k - o.skip_bytes + 1) with hD₁
      have hD₁len : D₁.length = D.length := by
        rw [hD₁]
        simp only [List.length_append, List.length_take, List.length_cons,
          List.length_nil, List.length_drop]
        have hminq : (d * o.part_size + k - o.skip_bytes) ⊓ D.length =
            d * o.part_size + k - o.skip_bytes := Nat.min_eq_left (by omega)
        omega
      have hmr₂ : min (o.part_size - (k + 1)) rest.length = mr := by
        rw [hmr]
        have hss : o.part_size - (k + 1) = o.part_size - k - 1 := by omega
        rw [hss]
      rw [ih (crc16Update dg b) d (k + 1) D₁ (P ++ [b]) hk1 (by omega)
        (by rw [hmr₂, hD₁len]; omega)]
      rw [hmr₂]
      have hXlen : (rest.take mr).length = mr := List.length_take_of_le hmrL
      have hs1 : d * o.part_size + (k + 1) - o.skip_bytes =
          d * o.part_size + k - o.skip_bytes + 1 := by omega
      rw [hs1]
      have hpeel := write_peel D (rest.take mr) (d * o.part_size + k - o.skip_bytes)
        b (by rw [hXlen]; omega)
      simp only [List.length_cons, hXlen] at hpeel
      rw [← hD₁] at hpeel
      rw [← hpeel]
      have hidx2 : k + 1 + mr = k + (mr + 1) := by omega
      rw [hidx2]
      simp only [List.foldl_cons, List.append_assoc, List.singleton_append]

/-- Relation between one interpreter pass on a whole chunk and the
byte-at-a-time reference run on the same bytes: full consumption reaches
the same state, terminal outcomes agree (success up to the break-time
phase), and the interpreter cannot panic from an invariant state, so
the crash case carries no obligation. -/
def ProcFeed (env : Env) (st : St) (c : List Nat) : ChunkOut → Prop
  | .next st' => feedBytes env st c = .pending st'
  | .success st' => ∃ stF, feedBytes env st c = .ok stF ∧ StObs st' stF
  | .failure e st' => feedBytes env st c = .err e st'
  | .crash _ _ => True
  | .spin => True

theorem feedBytes_cons (env : Env) (st : St) (b : Nat) (rest : List Nat) :
    feedBytes env st (b :: rest) =
      match processBytes env 8 st [b] with
      | .next st' => feedBytes env st' rest
      | .success st' => .ok st'
      | .failure e st' => .err e st'
      | .crash k st' => .crash k st'
      | .spin => .spin := rfl

theorem ProcFeed_of {env : Env} {st st₂ : St} {c c₂ : List Nat} {out : ChunkOut}
    (h : ProcFeed env st₂ c₂ out)
    (hfe : feedBytes env st c = feedBytes env st₂ c₂) :
    ProcFeed env st c out := by
  cases out with
  | next st' => exact hfe.trans h
  | success st' =>
    obtain ⟨stF, h1, h2⟩ := h
    exact ⟨stF, hfe.trans h1, h2⟩
  | failure e st' => exact hfe.trans h
  | crash k st' => exact trivial
  | spin => exact trivial

theorem stepF_sendCommand (env : Env) (f k : Nat) (st : St) (b : Nat) (rest : List Nat)
    (hp : st.phase = .sendCommand k) (hInv : Inv env st)
    (IH : ∀ st₁ c₁, Inv env st₁ → ProcFeed env st₁ c₁ (processBytes env f st₁ c₁)) :
    ProcFeed env st (b :: rest) (processBytes env (f + 1) st (b :: rest)) := by
  obtain ⟨ph, resp, dst, parts⟩ := st
  simp only at hp
  subst hp
  obtain ⟨hresp, hop, hphase⟩ := hInv
  simp only [PhaseInv] at hphase
  obtain ⟨hk, hparts⟩ := hphase
  simp only [processBytes]
  refine ProcFeed_of (IH _ _ ⟨hresp, hop, ?_⟩) ?_
  · by_cases h6 : k + min (6 - k) (b :: rest).length = 6 <;>
      simp only [PhaseInv, h6, if_pos, if_neg, hparts] <;> simp_all
    omega
  · exact feed_sendCommand env resp dst parts (b :: rest) k hk

theorem stepF_rrs (env : Env) (f : Nat) (dr : Bool) (st : St) (b : Nat) (rest : List Nat)
    (hp : st.phase = .receiveResponseStart dr) (hInv : Inv env st) (hNB : NB env)
    (IH : ∀ st₁ c₁, Inv env st₁ → ProcFeed env st₁ c₁ (processBytes env f st₁ c₁)) :
    ProcFeed env st (b :: rest) (processBytes env (f + 1) st (b :: rest)) := by
  obtain ⟨ph, resp, dst, parts⟩ := st
  simp only at hp
  subst hp
  obtain ⟨hresp, hop, hphase⟩ := hInv
  simp only [PhaseInv] at hphase
  obtain ⟨hre, hde, hops⟩ := hNB
  simp only [processBytes]
  rcases hscan : scanR1 (b :: rest) dr with ⟨oi, dr2⟩
  cases oi with
  | some i =>
    simp only [hscan]
    refine ProcFeed_of (IH _ _ ⟨hresp, hop, ?_⟩) ?_
    · simp only [PhaseInv]
      exact ⟨hresp, hphase⟩
    · exact feed_rrs_found env resp dst parts hre hresp hops (b :: rest) dr i dr2 hscan
  | none =>
    simp only [hscan]
    simp only [hre, Bool.false_eq_true, if_neg, reduceIte]
    have hall : ∀ x ∈ b :: rest, x &&& 0x80 ≠ 0 :=
      (scanR1_none_iff (b :: rest) dr).mp (by rw [hscan])
    have hflag := scanR1_none_flag (b :: rest) dr (by rw [hscan])
    rw [hscan] at hflag
    simp only at hflag
    show feedBytes env ⟨.receiveResponseStart dr, resp, dst, parts⟩ (b :: rest) =
      .pending ⟨.receiveResponseStart dr2, resp, dst, parts⟩
    rw [hflag]
    exact feed_rrs_exhaust env resp dst parts hre (b :: rest) dr hall

theorem stepF_crc (env : Env) (f e d : Nat) (b0 : Option Nat) (st : St)
    (b : Nat) (rest : List Nat)
    (hp : st.phase = .receiveCrc e d b0) (hInv : Inv env st)
    (IH : ∀ st₁ c₁, Inv env st₁ → ProcFeed env st₁ c₁ (processBytes env f st₁ c₁)) :
    ProcFeed env st (b :: rest) (processBytes env (f + 1) st (b :: rest)) := by
  obtain ⟨ph, resp, dst, parts⟩ := st
  simp only at hp
  subst hp
  obtain ⟨hresp, hop, hphase⟩ := hInv
  rw [PhaseInv.eq_def] at hphase
  have hread : ∃ o, env.operation = some (.read o) := by
    rcases henv : env.operation with _ | o
    · rw [henv] at hphase; simp at hphase
    · cases o with
      | read o => exact ⟨o, rfl⟩
      | write => rw [henv] at hphase; simp at hphase
      | busySignal h => rw [henv] at hphase; simp at hphase
  obtain ⟨o, henv⟩ := hread
  rw [henv] at hphase
  simp only at hphase
  obtain ⟨hd, hlen, he, hagree⟩ := hphase
  simp only [processBytes]
  cases b0 with
  | none =>
    refine ProcFeed_of (IH _ _ ⟨hresp, hop, ?_⟩) ?_
    · simp only [PhaseInv, henv]
      exact ⟨hd, hlen, he, hagree⟩
    · have h8 : processBytes env 8 ⟨.receiveCrc e d none, resp, dst, parts⟩ [b] =
          .next ⟨.receiveCrc e d (some b), resp, dst, parts⟩ :=
        stepB_crc_first env 7 e d resp dst parts b
      rw [feedBytes_cons, h8]
  | some c0 =>
    simp only [henv]
    by_cases hok : c0 * 256 + b = e ∨ o.crc_enabled = false
    · simp only [hok, if_pos]
      by_cases hfin : d + 1 = o.parts
      · simp only [hfin, if_pos]
        refine ⟨⟨.receiveCrc e d (some c0), resp, dst, parts⟩, ?_, rfl, rfl, rfl⟩
        have h8 : processBytes env 8 ⟨.receiveCrc e d (some c0), resp, dst, parts⟩ [b] =
            .success ⟨.receiveCrc e d (some c0), resp, dst, parts⟩ :=
          stepB_crc_ok_done env 7 e d c0 o resp dst parts b henv hok hfin
        rw [feedBytes_cons, h8]
      · simp only [hfin, if_neg, reduceIte]
        refine ProcFeed_of (IH _ _ ⟨hresp, hop, ?_⟩) ?_
        · simp only [PhaseInv, henv]
          exact ⟨by omega, hlen, hagree⟩
        · have h8 : processBytes env 8 ⟨.receiveCrc e d (some c0), resp, dst, parts⟩ [b] =
              .next ⟨.receiveStartBlockToken (d + 1), resp, dst, parts⟩ :=
            stepB_crc_ok_more env 7 e d c0 o resp dst parts b henv hok hfin
          rw [feedBytes_cons, h8]
    · simp only [hok, if_neg, reduceIte]
      show feedBytes env ⟨.receiveCrc e d (some c0), resp, dst, parts⟩ (b :: rest) =
        .err .invalidCrc ⟨.receiveCrc e d (some c0), resp, dst, parts⟩
      have h8 : processBytes env 8 ⟨.receiveCrc e d (some c0), resp, dst, parts⟩ [b] =
          .failure .invalidCrc ⟨.receiveCrc e d (some c0), resp, dst, parts⟩ :=
        stepB_crc_bad env 7 e d c0 o resp dst parts b henv hok
      rw [feedBytes_cons, h8]

theorem stepF_rResp (env : Env) (f k : Nat) (st : St) (b : Nat) (rest : List Nat)
    (hp : st.phase = .receiveResponse k) (hInv : Inv env st) (hNB : NB env)
    (IH : ∀ st₁ c₁, Inv env st₁ → ProcFeed env st₁ c₁ (processBytes env f st₁ c₁)) :
    ProcFeed env st (b :: rest) (processBytes env (f + 1) st (b :: rest)) := by
  obtain ⟨ph, resp, dst, parts⟩ := st
  simp only at hp
  subst hp
  obtain ⟨hresp, hop, hphase⟩ := hInv
  simp only [PhaseInv] at hphase
  obtain ⟨hk, hparts⟩ := hphase
  obtain ⟨hre, hde, hops⟩ := hNB
  simp only [processBytes]
  set cl := min (resp.length - k) (b :: rest).length with hcl
  have hcl1 : cl ≤ resp.length - k := Nat.min_le_left _ _
  have hcl2 : cl ≤ (b :: rest).length := Nat.min_le_right _ _
  have htl : ((b :: rest).take cl).length = cl := by
    simp only [List.length_take]
    exact Nat.min_eq_left hcl2
  have hkc : k + cl ≤ resp.length := by omega
  have hws : writeSlice resp k ((b :: rest).take cl) =
      some (resp.take k ++ (b :: rest).take cl ++ resp.drop (k + cl)) := by
    have h := @writeSlice_eq_some resp ((b :: rest).take cl) k (by rw [htl]; omega)
    rw [htl] at h
    exact h
  simp only [hws]
  set resp' := resp.take k ++ (b :: rest).take cl ++ resp.drop (k + cl) with hr'
  have hlen : resp'.length = resp.length := by
    simp only [hr', List.length_append, List.length_take, List.length_drop]
    have h1 : k ⊓ resp.length = k := Nat.min_eq_left (by omega)
    have h2 : cl ⊓ (b :: rest).length = cl := Nat.min_eq_left hcl2
    rw [h1, h2]
    omega
  by_cases hdone : k + cl = resp.length
  · simp only [hdone, if_pos]
    rcases hops with hnone | ⟨o, hreed⟩
    · simp only [hnone]
      refine ⟨⟨.receiveResponse (resp.length - 1), resp', dst, parts⟩, ?_, rfl, rfl, rfl⟩
      have h := feed_rResp_none env dst parts hnone (b :: rest) k resp hk
      rw [← hcl, ← hr'] at h
      rw [h, if_pos hdone]
    · simp only [hreed]
      have hval : ValidRead o dst.length := by
        rcases hop with hnone' | ⟨o', hopr, hv⟩ | ⟨h, hopb⟩
        · rw [hnone'] at hreed; cases hreed
        · rw [hopr] at hreed
          cases hreed
          exact hv
        · rw [hopb] at hreed; cases hreed
      refine ProcFeed_of (IH _ _ ⟨?_, ?_, ?_⟩) ?_
      · simpa [hlen] using hresp
      · exact hop
      · simp only [PhaseInv, hreed, hparts]
        refine ⟨hval.1, by simp, ?_⟩
        simp [DestAgrees, hparts]
      · have h := feed_rResp_read env o dst parts hreed (b :: rest) k resp hk
        rw [← hcl, ← hr'] at h
        rw [h, if_pos hdone]
  · simp only [hdone, if_neg, reduceIte]
    refine ProcFeed_of (IH _ _ ⟨?_, ?_, ?_⟩) ?_
    · simpa [hlen] using hresp
    · exact hop
    · simp only [PhaseInv, hlen]
      exact ⟨by omega, hparts⟩
    · rcases hops with hnone | ⟨o, hreed⟩
      · have h := feed_rResp_none env dst parts hnone (b :: rest) k resp hk
        rw [← hcl, ← hr'] at h
        rw [h, if_neg hdone]
      · have h := feed_rResp_read env o dst parts hreed (b :: rest) k resp hk
        rw [← hcl, ← hr'] at h
        rw [h, if_neg hdone]

theorem stepF_token (env : Env) (f d : Nat) (st : St) (b : Nat) (rest : List Nat)
    (hp : st.phase = .receiveStartBlockToken d) (hInv : Inv env st) (hNB : NB env)
    (IH : ∀ st₁ c₁, Inv env st₁ → ProcFeed env st₁ c₁ (processBytes env f st₁ c₁)) :
    ProcFeed env st (b :: rest) (processBytes env (f + 1) st (b :: rest)) := by
  obtain ⟨ph, resp, dst, parts⟩ := st
  simp only at hp
  subst hp
  obtain ⟨hresp, hop, hphase⟩ := hInv
  rw [PhaseInv.eq_def] at hphase
  have hread : ∃ op, env.operation = some (.read op) := by
    rcases henv : env.operation with _ | op
    · rw [henv] at hphase; simp at hphase
    · cases op with
      | read o => exact ⟨o, rfl⟩
      | write => rw [henv] at hphase; simp at hphase
      | busySignal h => rw [henv] at hphase; simp at hphase
  obtain ⟨o, henv⟩ := hread
  have hval : ValidRead o dst.length := by
    rcases hop with hnone | ⟨op', hopr, hv⟩ | ⟨h, hopb⟩
    · rw [hnone] at henv; cases henv
    · rw [hopr] at henv
      cases henv
      exact hv
    · rw [hopb] at henv; cases henv
  rw [henv] at hphase
  simp only at hphase
  obtain ⟨hd, hlen, hagree⟩ := hphase
  have hP : 1 ≤ o.part_size := by
    have := hval.2.1; omega
  obtain ⟨hre, hde, hops⟩ := hNB
  simp only [processBytes]
  rcases hscan : scanToken (b :: rest) with i | _ | _
  · simp only [hscan, henv]
    simp only [hde, Bool.false_eq_true, if_neg, reduceIte]
    refine ProcFeed_of (IH _ _ ⟨hresp, hop, ?_⟩) ?_
    · simp only [PhaseInv, henv]
      refine ⟨hd, hP, by simpa using hlen, ?_, hagree⟩
      rw [List.drop_of_length_le (by omega)]
      rfl
    · exact feed_token_found env o resp dst parts henv hde (b :: rest) d i hscan
  · simp only [hscan]
    show feedBytes env ⟨.receiveStartBlockToken d, resp, dst, parts⟩ (b :: rest) =
      .err .expectedStartBlockToken ⟨.receiveStartBlockToken d, resp, dst, parts⟩
    exact feed_token_bad env o resp dst parts henv hde (b :: rest) d hscan
  · simp only [hscan, henv]
    simp only [hde, Bool.false_eq_true, if_neg, reduceIte]
    show feedBytes env ⟨.receiveStartBlockToken d, resp, dst, parts⟩ (b :: rest) =
      .pending ⟨.receiveStartBlockToken d, resp, dst, parts⟩
    exact feed_token_exhaust env o resp dst parts henv hde (b :: rest) d hscan

theorem min_sub_right (a b c : Nat) : min a b - c = min (a - c) (b - c) := by
  rcases Nat.le_total a b with h | h
  · rw [Nat.min_eq_left h, Nat.min_eq_left (Nat.sub_le_sub_right h c)]
  · rw [Nat.min_eq_right h, Nat.min_eq_right (Nat.sub_le_sub_right h c)]

theorem stepF_data (env : Env) (f dg d k : Nat) (st : St) (b : Nat) (rest : List Nat)
    (hp : st.phase = .receiveData dg d k) (hInv : Inv env st) (hNB : NB env)
    (IH : ∀ st₁ c₁, Inv env st₁ → ProcFeed env st₁ c₁ (processBytes env f st₁ c₁)) :
    ProcFeed env st (b :: rest) (processBytes env (f + 1) st (b :: rest)) := by
  obtain ⟨ph, resp, dst, parts⟩ := st
  simp only at hp
  subst hp
  obtain ⟨hresp, hop, hphase⟩ := hInv
  rw [PhaseInv.eq_def] at hphase
  have hread : ∃ op, env.operation = some (.read op) := by
    rcases henv : env.operation with _ | op
    · rw [henv] at hphase; simp at hphase
    · cases op with
      | read o => exact ⟨o, rfl⟩
      | write => rw [henv] at hphase; simp at hphase
      | busySignal h => rw [henv] at hphase; simp at hphase
  obtain ⟨op, henv⟩ := hread
  have hval : ValidRead op dst.length := by
    rcases hop with hnone | ⟨op', hopr, hv⟩ | ⟨h, hopb⟩
    · rw [hnone] at henv; cases henv
    · rw [hopr] at henv; cases henv; exact hv
    · rw [hopb] at henv; cases henv
  rw [henv] at hphase
  simp only at hphase
  obtain ⟨hd, hk, hlen, hdg, hagree⟩ := hphase
  obtain ⟨hN, hS, hNP⟩ := hval
  simp only [processBytes, henv]
  set rl := min (op.part_size - k) (b :: rest).length with hrl
  have hrl1 : rl ≤ op.part_size - k := Nat.min_le_left _ _
  have hrl2 : rl ≤ (b :: rest).length := Nat.min_le_right _ _
  have hrlpos : 1 ≤ rl := by
    rw [hrl]
    refine Nat.le_min.mpr ⟨by omega, by simp⟩
  set c0 := (b :: rest).take rl with hc0
  have hc0len : c0.length = rl := by
    rw [hc0]
    simp only [List.length_take]
    exact Nat.min_eq_left hrl2
  have hbound : d * op.part_size + k + rl ≤ op.parts * op.part_size := by
    have h2 : (d + 1) * op.part_size ≤ op.parts * op.part_size :=
      Nat.mul_le_mul_right _ hd
    have h3 : (d + 1) * op.part_size = d * op.part_size + op.part_size := by ring
    omega
  have hdg' : ((parts ++ c0).drop (d * op.part_size)).foldl crc16Update 0 =
      c0.foldl crc16Update dg := by
    rw [List.drop_append_of_le_length (by omega), List.foldl_append, ← hdg]
  have hplen' : (parts ++ c0).length = d * op.part_size + k + rl := by
    simp [hc0len, hlen]
  by_cases hlt : d * op.part_size + k < op.skip_bytes
  · have hd0 : d = 0 := by
      rcases Nat.eq_zero_or_pos d with h | h
      · exact h
      · exfalso
        have : op.part_size ≤ d * op.part_size := by
          calc op.part_size = 1 * op.part_size := (Nat.one_mul _).symm
          _ ≤ d * op.part_size := Nat.mul_le_mul_right _ h
        omega
    have hdP : d * op.part_size = 0 := by rw [hd0]; ring
    have hmul : (d + 1) * op.part_size = d * op.part_size + op.part_size := by ring
    have hPle : op.part_size ≤ op.parts * op.part_size := by
      calc op.part_size = 1 * op.part_size := (Nat.one_mul _).symm
      _ ≤ op.parts * op.part_size := Nat.mul_le_mul_right _ hN
    by_cases hstr : d * op.part_size + k + rl > op.skip_bytes
    · -- the chunk straddles the end of the skip region
      simp only [if_pos hlt, if_pos hstr]
      have hsrc : (c0.drop (op.skip_bytes - k)).length = rl - (op.skip_bytes - k) := by
        simp [List.length_drop, hc0len]
      have hsrc2 : (c0.drop (op.skip_bytes - k)).take (rl - (op.skip_bytes - k)) =
          c0.drop (op.skip_bytes - k) := List.take_of_length_le (by omega)
      have hnoclip : ¬ (0 + (rl - (op.skip_bytes - k)) > dst.length) := by omega
      simp only [if_neg hnoclip]
      have hle : op.skip_bytes - k + (rl - (op.skip_bytes - k)) ≤ rl := by omega
      simp only [if_pos hle]
      have hwb : 0 +
          ((c0.drop (op.skip_bytes - k)).take (rl - (op.skip_bytes - k))).length ≤
          dst.length := by
        rw [hsrc2, hsrc]; omega
      rw [writeSlice_eq_some hwb]
      rw [hsrc2]
      rw [hsrc]
      simp only [List.take_zero, List.nil_append, Nat.zero_add]
      -- the continuation state now has destination
      --   c0.drop (skip - k) ++ dst.drop (rl - (skip - k))
      have hlen' : (c0.drop (op.skip_bytes - k) ++
          dst.drop (rl - (op.skip_bytes - k))).length = dst.length := by
        simp only [List.length_append, List.length_drop, hsrc]
        omega
      have hagree' : (c0.drop (op.skip_bytes - k) ++
          dst.drop (rl - (op.skip_bytes - k))).take
            ((parts ++ c0).length - op.skip_bytes) = (parts ++ c0).drop op.skip_bytes := by
        rw [hplen']
        have h1 : d * op.part_size + k + rl - op.skip_bytes = rl - (op.skip_bytes - k) := by
          omega
        rw [h1, ← hsrc, List.take_left]
        have hdropP : parts.drop op.skip_bytes = [] := List.drop_of_length_le (by omega)
        rw [List.drop_append_eq_append_drop, hdropP]
        have h2 : op.skip_bytes - parts.length = op.skip_bytes - k := by omega
        rw [h2]
        simp
      -- the byte-at-a-time walk over the same span
      have h₁ := feed_data_skip env op resp henv hS (b :: rest) dg d k dst parts hk
        (by omega)
      have hM₁ : min (op.skip_bytes - (d * op.part_size + k)) (b :: rest).length =
          op.skip_bytes - k := by
        have hq : op.skip_bytes - (d * op.part_size + k) = op.skip_bytes - k := by omega
        rw [hq]
        exact Nat.min_eq_left (by omega)
      rw [hM₁] at h₁
      have hkM : k + (op.skip_bytes - k) = op.skip_bytes := by omega
      rw [hkM] at h₁
      have h₂ := feed_data_write env op resp henv ((b :: rest).drop (op.skip_bytes - k))
        (((b :: rest).take (op.skip_bytes - k)).foldl crc16Update dg) d op.skip_bytes
        dst (parts ++ (b :: rest).take (op.skip_bytes - k)) hS (by omega)
        (by
          have hdl : ((b :: rest).drop (op.skip_bytes - k)).length =
              (b :: rest).length - (op.skip_bytes - k) := List.length_drop ..
          have hM₂ : min (op.part_size - op.skip_bytes)
              ((b :: rest).drop (op.skip_bytes - k)).length =
              rl - (op.skip_bytes - k) := by
            rw [hdl, hrl]
            have hq : op.part_size - op.skip_bytes =
                op.part_size - k - (op.skip_bytes - k) := by omega
            rw [hq, ← min_sub_right]
          rw [hM₂]
          omega)
      have hdl : ((b :: rest).drop (op.skip_bytes - k)).length =
          (b :: rest).length - (op.skip_bytes - k) := List.length_drop ..
      have hM₂ : min (op.part_size - op.skip_bytes)
          ((b :: rest).drop (op.skip_bytes - k)).length =
          rl - (op.skip_bytes - k) := by
        rw [hdl, hrl]
        have hq : op.part_size - op.skip_bytes =
            op.part_size - k - (op.skip_bytes - k) := by omega
        rw [hq, ← min_sub_right]
      rw [hM₂] at h₂
      have htj : (b :: rest).take (op.skip_bytes - k) ++
          ((b :: rest).drop (op.skip_bytes - k)).take (rl - (op.skip_bytes - k)) =
          c0 := by
        rw [hc0, ← List.take_add]
        congr 1
        omega
      have hsrc3 : ((b :: rest).drop (op.skip_bytes - k)).take
          (rl - (op.skip_bytes - k)) = c0.drop (op.skip_bytes - k) := by
        rw [hc0]
        exact (List.drop_take ..).symm
      have hdg2 : (((b :: rest).drop (op.skip_bytes - k)).take
            (rl - (op.skip_bytes - k))).foldl crc16Update
            (((b :: rest).take (op.skip_bytes - k)).foldl crc16Update dg) =
          c0.foldl crc16Update dg := by
        rw [← List.foldl_append, htj]
      have hparts2 : parts ++ (b :: rest).take (op.skip_bytes - k) ++
          ((b :: rest).drop (op.skip_bytes - k)).take (rl - (op.skip_bytes - k)) =
          parts ++ c0 := by
        rw [List.append_assoc, htj]
      have hdest2 : dst.take (d * op.part_size + op.skip_bytes - op.skip_bytes) ++
          ((b :: rest).drop (op.skip_bytes - k)).take (rl - (op.skip_bytes - k)) ++
          dst.drop (d * op.part_size + op.skip_bytes - op.skip_bytes +
            (rl - (op.skip_bytes - k))) =
          c0.drop (op.skip_bytes - k) ++ dst.drop (rl - (op.skip_bytes - k)) := by
        have hz : d * op.part_size + op.skip_bytes - op.skip_bytes = 0 := by omega
        rw [hz, hsrc3]
        simp only [List.take_zero, List.nil_append, Nat.zero_add]
      rw [hdest2, hdg2, hparts2] at h₂
      have hkidx : op.skip_bytes + (rl - (op.skip_bytes - k)) = k + rl := by omega
      rw [hkidx] at h₂
      have hdrop2 : ((b :: rest).drop (op.skip_bytes - k)).drop
          (rl - (op.skip_bytes - k)) = (b :: rest).drop rl := by
        rw [List.drop_drop]
        congr 1
        omega
      rw [hdrop2] at h₂
      have hfe := h₁.trans h₂
      by_cases hfin : k + rl = op.part_size
      · simp only [hfin, if_pos]
        rw [if_pos hfin] at hfe
        refine ProcFeed_of (IH _ _ ⟨hresp, ?_, ?_⟩) hfe
        · simp only
          rw [hlen']
          exact hop
        · simp only [PhaseInv, henv]
          exact ⟨hd, by omega, hdg'.symm, hagree'⟩
      · simp only [hfin, if_neg, reduceIte]
        rw [if_neg hfin] at hfe
        refine ProcFeed_of (IH _ _ ⟨hresp, ?_, ?_⟩) hfe
        · simp only
          rw [hlen']
          exact hop
        · simp only [PhaseInv, henv]
          exact ⟨hd, by omega, by omega, hdg'.symm, hagree'⟩
    · -- the whole chunk is inside the skip region
      simp only [if_pos hlt, if_neg hstr]
      have hnoclip : ¬ (0 + 0 > dst.length) := by omega
      simp only [if_neg hnoclip]
      have hle : 0 + 0 ≤ rl := by omega
      simp only [if_pos hle]
      have hwb : 0 + ((c0.drop 0).take 0).length ≤ dst.length := by simp
      rw [writeSlice_eq_some hwb]
      have hdst : dst.take 0 ++ (c0.drop 0).take 0 ++
          dst.drop (0 + ((c0.drop 0).take 0).length) = dst := by simp
      rw [hdst]
      have hagree' : dst.take ((parts ++ c0).length - op.skip_bytes) =
          (parts ++ c0).drop op.skip_bytes := by
        rw [hplen']
        have h0 : d * op.part_size + k + rl - op.skip_bytes = 0 := by omega
        rw [h0, List.take_zero, List.drop_of_length_le (by omega)]
      have hrlc : rl = (b :: rest).length := by
        have hba : (b :: rest).length ≤ op.part_size - k := by
          by_contra hcon
          push_neg at hcon
          have hq : rl = op.part_size - k := by
            rw [hrl]
            exact Nat.min_eq_left (by omega)
          omega
        rw [hrl]
        exact Nat.min_eq_right hba
      have h₁ := feed_data_skip env op resp henv hS (b :: rest) dg d k dst parts hk
        (by omega)
      have hM₁ : min (op.skip_bytes - (d * op.part_size + k)) (b :: rest).length =
          rl := by
        rw [hrlc]
        exact Nat.min_eq_right (by omega)
      rw [hM₁] at h₁
      rw [← hc0] at h₁
      by_cases hfin : k + rl = op.part_size
      · exact absurd hfin (by omega)
      · simp only [hfin, if_neg, reduceIte]
        refine ProcFeed_of (IH _ _ ⟨hresp, hop, ?_⟩) h₁
        simp only [PhaseInv, henv]
        exact ⟨hd, by omega, by omega, hdg'.symm, hagree'⟩
  · -- already past the skip region
    simp only [if_neg hlt]
    have hge : op.skip_bytes ≤ d * op.part_size + k := by omega
    have hnoclip : ¬ (d * op.part_size + k - op.skip_bytes + rl > dst.length) := by omega
    simp only [if_neg hnoclip]
    have hle : 0 + rl ≤ rl := by omega
    simp only [if_pos hle]
    have hsrc : (c0.drop 0).take rl = c0 := by
      rw [List.drop_zero]
      exact List.take_of_length_le (by omega)
    have hwb : d * op.part_size + k - op.skip_bytes + ((c0.drop 0).take rl).length ≤
        dst.length := by
      rw [hsrc, hc0len]; omega
    rw [writeSlice_eq_some hwb]
    rw [hsrc, hc0len]
    set ds := d * op.part_size + k - op.skip_bytes with hds
    have hlen' : (dst.take ds ++ c0 ++ dst.drop (ds + rl)).length = dst.length := by
      rw [← hc0len]
      simp only [List.length_append, List.length_take, List.length_drop]
      have h1 : ds ⊓ dst.length = ds := Nat.min_eq_left (by omega)
      rw [h1, hc0len]
      omega
    have htake : (dst.take ds).length = ds := by
      simp only [List.length_take]
      exact Nat.min_eq_left (by omega)
    have hagree' : (dst.take ds ++ c0 ++ dst.drop (ds + rl)).take
        ((parts ++ c0).length - op.skip_bytes) = (parts ++ c0).drop op.skip_bytes := by
      rw [hplen']
      have h3 : d * op.part_size + k + rl - op.skip_bytes =
          (dst.take ds).length + c0.length := by
        rw [htake, hc0len]; omega
      rw [h3]
      have h4 : dst.drop (ds + rl) = dst.drop (ds + c0.length) := by rw [hc0len]
      rw [h4, take_write_middle]
      rw [List.drop_append_of_le_length (by omega)]
      have h2 : dst.take ds = parts.drop op.skip_bytes := by
        have h5 : parts.length - op.skip_bytes = ds := by omega
        have h6 := hagree
        unfold DestAgrees at h6
        simp only at h6
        rw [h5] at h6
        exact h6
      rw [h2]
    have h₁ := feed_data_write env op resp henv (b :: rest) dg d k dst parts hk hge
      (by rw [← hrl]; omega)
    rw [← hrl, ← hc0, ← hds] at h₁
    by_cases hfin : k + rl = op.part_size
    · simp only [hfin, if_pos]
      rw [if_pos hfin] at h₁
      refine ProcFeed_of (IH _ _ ⟨by simpa using hresp, ?_, ?_⟩) h₁
      · simp only
        rw [hlen']
        exact hop
      · simp only [PhaseInv, henv]
        refine ⟨hd, ?_, by rw [hdg'], hagree'⟩
        rw [hplen']
        have : (d + 1) * op.part_size = d * op.part_size + op.part_size := by ring
        omega
    · simp only [hfin, if_neg, reduceIte]
      rw [if_neg hfin] at h₁
      refine ProcFeed_of (IH _ _ ⟨by simpa using hresp, ?_, ?_⟩) h₁
      · simp only
        rw [hlen']
        exact hop
      · simp only [PhaseInv, henv]
        exact ⟨hd, by omega, by omega, by rw [hdg'], hagree'⟩

/-- Main bisimulation: from an invariant state, in the non-busy
no-deadline setting, one interpreter pass on a whole chunk agrees with
the byte-at-a-time reference run over the same bytes. -/
theorem processBytes_feed (env : Env) (hNB : NB env) :
    ∀ (f : Nat) (st : St) (c : List Nat), Inv env st →
      ProcFeed env st c (processBytes env f st c)
  | f, st, [] => fun _ => by
      rw [processBytes_nil]
      exact rfl
  | 0, st, b :: rest => fun _ => by
      simp only [processBytes]
      exact trivial
  | f + 1, st, b :: rest => fun hInv => by
      have IH : ∀ st₁ c₁, Inv env st₁ →
          ProcFeed env st₁ c₁ (processBytes env f st₁ c₁) := fun st₁ c₁ h =>
        processBytes_feed env hNB f st₁ c₁ h
      cases hp : st.phase with
      | sendCommand k => exact stepF_sendCommand env f k st b rest hp hInv IH
      | receiveResponseStart dr => exact stepF_rrs env f dr st b rest hp hInv hNB IH
      | receiveResponse k => exact stepF_rResp env f k st b rest hp hInv hNB IH
      | waitUntilNotBusy bb =>
        exfalso
        have h := hInv.2.2
        rw [PhaseInv.eq_def, hp] at h
        rcases hNB.2.2 with hnone | ⟨o, hreed⟩
        · rw [hnone] at h; simp at h
        · rw [hreed] at h; simp at h
      | receiveStartBlockToken d => exact stepF_token env f d st b rest hp hInv hNB IH
      | receiveData dg d k => exact stepF_data env f dg d k st b rest hp hInv hNB IH
      | receiveCrc e d b0 => exact stepF_crc env f e d b0 st b rest hp hInv IH
      | writeData n =>
        exfalso
        have h := hInv.2.2
        rw [PhaseInv.eq_def, hp] at h
        rcases henv : env.operation with _ | o
        · rw [henv] at h; simp at h
        · rw [henv] at h; cases o <;> simp at h

/-- Relation between a chunked run and the byte-at-a-time reference run
on the flattened byte sequence: outcomes agree (success up to the
break-time phase), a run that exhausts its chunks sits at exactly the
reference state, and no crash is reachable. -/
def RunFeed (env : Env) (st : St) (cs : List (List Nat)) : RunResult → Prop
  | .ok st' => ∃ stF, feedBytes env st cs.flatten = .ok stF ∧ StObs st' stF
  | .err e st' => feedBytes env st cs.flatten = .err e st'
  | .crash _ _ => False
  | .pending st' => feedBytes env st cs.flatten = .pending st'
  | .spin => True

theorem runChunks_feed (env : Env) (hNB : NB env) :
    ∀ (F : Nat) (st : St) (cs : List (List Nat)), Inv env st →
      RunFeed env st cs (runChunks env F st cs)
  | _, st, [] => fun _ => by
      simp only [runChunks]
      exact rfl
  | 0, st, c :: cs => fun _ => by
      simp only [runChunks]
      exact trivial
  | F + 1, st, c :: cs => fun hInv => by
      simp only [runChunks]
      have hA := processBytes_feed env hNB (F + 1) st c hInv
      have hPO := processBytes_out env (F + 1) st c hInv
      rcases hres : processBytes env (F + 1) st c with st' | st' | ⟨e, st'⟩ | ⟨kk, st'⟩ | _
      · simp only
        rw [hres] at hA hPO
        have hB := runChunks_feed env hNB F st' cs hPO.1
        have happ := feedBytes_append env c st cs.flatten
        rw [hA] at happ
        simp only at happ
        rcases hrun : runChunks env F st' cs with a | ⟨e1, a⟩ | ⟨k1, a⟩ | a | _
        · rw [hrun] at hB
          obtain ⟨stF, h1, h2⟩ := hB
          refine ⟨stF, ?_, h2⟩
          rw [List.flatten_cons, happ]
          exact h1
        · rw [hrun] at hB
          show feedBytes env st (c :: cs).flatten = .err e1 a
          rw [List.flatten_cons, happ]
          exact hB
        · rw [hrun] at hB
          exact hB
        · rw [hrun] at hB
          show feedBytes env st (c :: cs).flatten = .pending a
          rw [List.flatten_cons, happ]
          exact hB
        · exact trivial
      · simp only
        rw [hres] at hA
        obtain ⟨stF, h1, h2⟩ := hA
        refine ⟨stF, ?_, h2⟩
        rw [List.flatten_cons, feedBytes_append env c st cs.flatten, h1]
      · simp only
        rw [hres] at hA
        show feedBytes env st (c :: cs).flatten = .err e st'
        rw [List.flatten_cons, feedBytes_append env c st cs.flatten, hA]
      · simp only
        rw [hres] at hPO
        exact absurd hPO (by simp [ProcOut])
      · exact trivial

/-- Two splittings of the same card bytes 00 01 under a busy-signal
operation: fed as one transfer the engine sees the non-zero release byte
and succeeds, but split at the byte boundary the first all-zero transfer
is reprocessed forever by the WaitUntilNotBusy arm and the run exhausts
its fuel, so the splitting invariance of the spec fails for busy
operations. -/
theorem chunk_splitting_busy_cex :
    runChunks ⟨1, some (.busySignal 1), false, false⟩ 20
        ⟨.waitUntilNotBusy 0, [0], [], []⟩ [[0x00, 0x01]] =
      .ok ⟨.waitUntilNotBusy 0, [0], [], []⟩ ∧
    runChunks ⟨1, some (.busySignal 1), false, false⟩ 20
        ⟨.waitUntilNotBusy 0, [0], [], []⟩ [[0x00], [0x01]] = .spin := by decide

/-- C10 (amended): for a fixed card byte stream, with no expired
deadline and a None or Read operation (the implemented non-busy paths),
every two ways of splitting the bytes across transfer boundaries drive
the engine to the same observable outcome: no splitting can panic, a
typed error or an out-of-chunks state is identical (same error, same
final state), and a success yields the same response slot, the same
destination contents and the same raw received parts - only the
break-time phase may differ. For Busy-signal operations the invariance
fails through the WaitUntilNotBusy loop: see the counterexample. -/
theorem chunk_splitting_observational (env : Env) (st : St)
    (hInv : Inv env st) (hNB : NB env)
    (cs1 cs2 : List (List Nat)) (hj : cs1.flatten = cs2.flatten) (f1 f2 : Nat) :
    (∀ k a, runChunks env f1 st cs1 ≠ .crash k a) ∧
    (∀ a, runChunks env f1 st cs1 = .ok a →
      runChunks env f2 st cs2 ≠ .spin →
      ∃ b2, runChunks env f2 st cs2 = .ok b2 ∧ StObs a b2) ∧
    (∀ e a, runChunks env f1 st cs1 = .err e a →
      runChunks env f2 st cs2 ≠ .spin → runChunks env f2 st cs2 = .err e a) ∧
    (∀ a, runChunks env f1 st cs1 = .pending a →
      runChunks env f2 st cs2 ≠ .spin → runChunks env f2 st cs2 = .pending a) := by
  have hB1 := runChunks_feed env hNB f1 st cs1 hInv
  have hB2 := runChunks_feed env hNB f2 st cs2 hInv
  refine ⟨?_, ?_, ?_, ?_⟩
  · intro k a hcrash
    rw [hcrash] at hB1
    exact hB1
  · intro a hok hns
    rw [hok] at hB1
    obtain ⟨stF, h1, h2⟩ := hB1
    rw [hj] at h1
    rcases hr2 : runChunks env f2 st cs2 with b2 | ⟨e2, b2⟩ | ⟨k2, b2⟩ | b2 | _
    · rw [hr2] at hB2
      obtain ⟨stF2, h21, h22⟩ := hB2
      have h3 := h1.symm.trans h21
      injection h3 with h4
      subst h4
      obtain ⟨x1, x2, x3⟩ := h2
      obtain ⟨y1, y2, y3⟩ := h22
      exact ⟨b2, rfl, x1.trans y1.symm, x2.trans y2.symm, x3.trans y3.symm⟩
    · rw [hr2] at hB2
      exact absurd (h1.symm.trans hB2) (by intro hh; cases hh)
    · rw [hr2] at hB2
      exact absurd hB2 (by intro hh; exact hh)
    · rw [hr2] at hB2
      exact absurd (h1.symm.trans hB2) (by intro hh; cases hh)
    · exact absurd hr2 hns
  · intro e a herr hns
    rw [herr] at hB1
    have h1 : feedBytes env st cs1.flatten = .err e a := hB1
    rw [hj] at h1
    rcases hr2 : runChunks env f2 st cs2 with b2 | ⟨e2, b2⟩ | ⟨k2, b2⟩ | b2 | _
    · rw [hr2] at hB2
      obtain ⟨stF2, h21, h22⟩ := hB2
      exact absurd (h1.symm.trans h21) (by intro hh; cases hh)
    · rw [hr2] at hB2
      have h3 := h1.symm.trans hB2
      injection h3 with h4 h5
      subst h4
      subst h5
      rfl
    · rw [hr2] at hB2
      exact absurd hB2 (by intro hh; exact hh)
    · rw [hr2] at hB2
      exact absurd (h1.symm.trans hB2) (by intro hh; cases hh)
    · exact absurd hr2 hns
  · intro a hpend hns
    rw [hpend] at hB1
    have h1 : feedBytes env st cs1.flatten = .pending a := hB1
    rw [hj] at h1
    rcases hr2 : runChunks env f2 st cs2 with b2 | ⟨e2, b2⟩ | ⟨k2, b2⟩ | b2 | _
    · rw [hr2] at hB2
      obtain ⟨stF2, h21, h22⟩ := hB2
      exact absurd (h1.symm.trans h21) (by intro hh; cases hh)
    · rw [hr2] at hB2
      exact absurd (h1.symm.trans hB2) (by intro hh; cases hh)
    · rw [hr2] at hB2
      exact absurd hB2 (by intro hh; exact hh)
    · rw [hr2] at hB2
      have h3 := h1.symm.trans hB2
      injection h3 with h4
      subst h4
      rfl
    · exact absurd hr2 hns

theorem chunk_splitting_observational_witness :
    ∃ b2, runChunks ⟨0, none, false, false⟩ 10 (initSt [0xAA] [])
        [[0xFF, 0xFF, 0xFF], [0xFF, 0xFF, 0xFF, 0x05]] = .ok b2 ∧
      StObs ⟨.receiveResponse 0, [0x05], [], []⟩ b2 :=
  (chunk_splitting_observational ⟨0, none, false, false⟩ (initSt [0xAA] [])
      (initSt_inv ⟨0, none, false, false⟩ [0xAA] [] (by decide) (Or.inl rfl))
      ⟨rfl, rfl, Or.inl rfl⟩
      [[0xFF, 0xFF, 0xFF, 0xFF, 0xFF, 0xFF, 0x05]]
      [[0xFF, 0xFF, 0xFF], [0xFF, 0xFF, 0xFF, 0x05]] (by decide) 10 10).2.1
    ⟨.receiveResponse 0, [0x05], [], []⟩ (by decide) (by decide)

end SpiSdCard
